import Mathlib

/-!
# Verification of the libSoX `trim` effect (src/trim.c)

This file gives a shallow embedding of the `trim` effect of libSoX:

* position resolution and output-length calculation (`start`, trim.c lines 71-145),
* the streaming copy/discard loop (`flow`, lines 147-179),
* `drain` (lines 181-189), and
* the start-skip optimization API (`sox_trim_get_start`, `sox_trim_clear_start`,
  lines 221-231).

Counters that are `uint64_t` in C (`sample`, `samples_read`) are modelled as `Nat`;
no arithmetic in any reachable configuration approaches `2 ^ 64`, so overflow does
not matter for the statements proved here.  The external duration parser
(`lsx_parsesamples`) is an out-of-scope collaborator: positions enter the model
already carrying their parsed numeric `value` (in wide samples, i.e. frames).

The flow loop of the C source is a `while` loop whose termination relies on the
run-time invariant that the marker cursor never lies behind `samples_read`; it is
modelled with an explicit fuel parameter, and the fuel supplied by `flow` is proved
sufficient for every state satisfying the reachable-state invariant `Inv`.
-/

namespace SoxTrim

/-- Anchor of one position argument (trim.c `enum { a_start, a_latest, a_end }`):
`=` prefix gives `a_start`, `-` gives `a_end`, no prefix gives `a_latest`. -/
inductive Anchor where
  | a_start
  | a_latest
  | a_end
deriving DecidableEq, Repr

/-- One position directive, after CLI parsing: its anchor and the numeric value
produced by the (out-of-scope) duration parser, in frames ("wide samples"). -/
structure PosSpec where
  anchor : Anchor
  value : Nat
deriving DecidableEq, Repr

/-- Modelled from the spec: `SOX_UNKNOWN_LEN`, the sentinel meaning "total stream
length unknown" (sox.h is a collaborator header, not under src/); it is the
all-ones 64-bit value. -/
def SOX_UNKNOWN_LEN : Nat := 2 ^ 64 - 1

/-- The mutable state of one trim instance (the `priv_t` of trim.c, after `start`
has resolved every position): the resolved absolute frame offsets (`pos[i].sample`),
the marker cursor (`current_pos`), the frames consumed so far (`samples_read`)
and the copy/discard flag (`copying`). -/
structure TrimState where
  markers : List Nat
  current_pos : Nat
  samples_read : Nat
  copying : Bool
deriving DecidableEq, Repr

/-- Result status of one `flow` invocation: `SOX_SUCCESS` or `SOX_EOF`. -/
inductive FlowStatus where
  | success
  | eof
deriving DecidableEq, Repr

/-- The `lsx_fail` conditions of `start` (trim.c lines 83-124). -/
inductive StartError where
  /-- "Can't use positions relative to end: audio length is unknown." -/
  | lengthUnknownWithEnd
  /-- "Position %u is before start of audio." (prints `i+1`). -/
  | positionBeforeStart (printed : Nat)
  /-- "Position %u is behind the following position." (prints the loop index `i`). -/
  | positionBehind (printed : Nat)
  /-- "Start position after end of audio." -/
  | startAfterEnd
  /-- "End position after end of audio." -/
  | endAfterEnd
deriving DecidableEq, Repr

/-- Outcome of `start`: a fatal configuration error (`SOX_EOF` after `lsx_fail`),
the no-op signal `SOX_EFF_NULL`, or success together with the declared output
length (`effp->out_signal.length`, in scalar samples, `SOX_UNKNOWN_LEN` if unknown). -/
inductive StartOutcome where
  | fail (e : StartError)
  | effNull
  | success (st : TrimState) (outLen : Nat)
deriving DecidableEq, Repr

/-- Field `p->uses_end` of `priv_t`: set during `parse` iff some argument has the `-` prefix. -/
def usesEnd (ps : List PosSpec) : Bool :=
  ps.any (fun m => decide (m.anchor = Anchor.a_end))

/-- The absolute-position loop of `start` (trim.c lines 87-104): walk the
positions keeping `last_seen`, resolving each anchor; an `a_end` value larger
than the input length fails ("Position %u is before start of audio.", printing
the 1-based index, returned here as the error payload). -/
def resolveFrom (in_length : Nat) : Nat → Nat → List PosSpec → Except Nat (List Nat)
  | _, _, [] => Except.ok []
  | lastSeen, idx, m :: rest =>
    match m.anchor with
    | Anchor.a_start =>
      (resolveFrom in_length m.value (idx + 1) rest).map (fun l => m.value :: l)
    | Anchor.a_latest =>
      (resolveFrom in_length (lastSeen + m.value) (idx + 1) rest).map
        (fun l => (lastSeen + m.value) :: l)
    | Anchor.a_end =>
      if in_length < m.value then Except.error (idx + 1)
      else
        (resolveFrom in_length (in_length - m.value) (idx + 1) rest).map
          (fun l => (in_length - m.value) :: l)

/-- The sanity-check loop of `start` (trim.c lines 107-114): walk the resolved
offsets keeping `last_seen` (initially 0); the first offset smaller than its
predecessor fails ("Position %u is behind the following position.", printing the
0-based loop index, returned here in `some`). -/
def monoCheckFrom : Nat → Nat → List Nat → Option Nat
  | _, _, [] => none
  | lastSeen, idx, x :: rest =>
    if x < lastSeen then some idx else monoCheckFrom x (idx + 1) rest

/-- The kept-span sum of the output-length loop (trim.c lines 135-137):
sum of `pos[i+1] - pos[i]` over consecutive pairs. -/
def pairSum : List Nat → Nat
  | a :: b :: rest => (b - a) + pairSum rest
  | _ => 0

/-- The input length in frames seen by `start` (trim.c lines 74-75): the scalar
length divided by the channel count, with `SOX_UNKNOWN_LEN` passed through. -/
def inLenOf (channels length : Nat) : Nat :=
  if length ≠ SOX_UNKNOWN_LEN then length / channels else SOX_UNKNOWN_LEN

/-- The boundary checks, degenerate case and output-length calculation of
`start` (trim.c lines 115-144), on the resolved offsets `ms`: first/last
position beyond a known end of audio fail; exactly one zero position yields
`SOX_EFF_NULL`; otherwise the declared output length is computed. -/
def startChecks (channels in_length : Nat) (ms : List Nat) : StartOutcome :=
  if ms.length ≠ 0 ∧ in_length ≠ SOX_UNKNOWN_LEN ∧ in_length < ms.getD 0 0 then
    StartOutcome.fail StartError.startAfterEnd
  else if ms.length ≠ 0 ∧ in_length ≠ SOX_UNKNOWN_LEN ∧
      in_length < ms.getD (ms.length - 1) 0 then
    StartOutcome.fail StartError.endAfterEnd
  else if ms.length = 1 ∧ ms.getD 0 0 = 0 then
    StartOutcome.effNull
  else
    let outLen : Nat :=
      if ms.length % 2 = 1 ∧ in_length = SOX_UNKNOWN_LEN then SOX_UNKNOWN_LEN
      else
        (pairSum ms +
          (if ms.length % 2 = 1 then in_length - ms.getD (ms.length - 1) 0 else 0)) *
          channels
    StartOutcome.success ⟨ms, 0, 0, false⟩ outLen

/-- The sanity-check loop of `start` (trim.c lines 107-114) followed by
`startChecks`: the first out-of-order resolved offset is fatal. -/
def startAfterResolve (channels in_length : Nat) (ms : List Nat) : StartOutcome :=
  match monoCheckFrom 0 0 ms with
  | some i => StartOutcome.fail (StartError.positionBehind i)
  | none => startChecks channels in_length ms

/-- Function `start` (trim.c lines 71-145).  `length` is `effp->in_signal.length` in scalar
samples (or `SOX_UNKNOWN_LEN`); `channels` is the channel count; `ps` carries the
parsed positions.  Resolves positions, validates them (`startAfterResolve`,
`startChecks`), handles the degenerate single-zero-marker case, and computes
the declared output length. -/
def start (channels length : Nat) (ps : List PosSpec) : StartOutcome :=
  let in_length : Nat := inLenOf channels length
  if in_length = SOX_UNKNOWN_LEN ∧ usesEnd ps = true then
    StartOutcome.fail StartError.lengthUnknownWithEnd
  else
    match resolveFrom in_length 0 0 ps with
    | Except.error i => StartOutcome.fail (StartError.positionBeforeStart i)
    | Except.ok ms => startAfterResolve channels in_length ms

/-- The `while (len)` loop of `flow` (trim.c lines 156-176), with explicit fuel.
One recursive call is one loop iteration: toggle `copying` and advance the cursor
when `samples_read` sits exactly on the next marker; return `SOX_EOF` when the
cursor has exhausted the markers while not copying; otherwise process a `chunk`
of frames (copied to the output when `copying`).  Returns the new cursor,
`samples_read`, `copying`, the frames written to `obuf`, the frames consumed, and
the status; `none` only on fuel exhaustion, which `flowLoop_spec` rules out for
every state satisfying `Inv`. -/
def flowLoop {α : Type} (markers : List Nat) :
    Nat → Nat → Nat → Bool → List α → Nat →
    Option (Nat × Nat × Bool × List α × Nat × FlowStatus)
  | 0, _, _, _, _, _ => none
  | _ + 1, cp, sr, copying, _, 0 => some (cp, sr, copying, [], 0, FlowStatus.success)
  | fuel + 1, cp, sr, copying, ibuf, len + 1 =>
    let cp1 : Nat :=
      if cp < markers.length ∧ sr = markers.getD cp 0 then cp + 1 else cp
    let copying1 : Bool :=
      if cp < markers.length ∧ sr = markers.getD cp 0 then !copying else copying
    if markers.length ≤ cp1 ∧ copying1 = false then
      some (cp1, sr, copying1, [], 0, FlowStatus.eof)
    else
      let chunk : Nat :=
        if cp1 < markers.length then min (len + 1) (markers.getD cp1 0 - sr) else len + 1
      (flowLoop markers fuel cp1 (sr + chunk) copying1 (ibuf.drop chunk)
          (len + 1 - chunk)).map
        (fun r =>
          (r.1, r.2.1, r.2.2.1,
            (if copying1 then ibuf.take chunk else []) ++ r.2.2.2.1,
            chunk + r.2.2.2.2.1, r.2.2.2.2.2))

/-- Function `flow` (trim.c lines 147-179).  `isamp` and `osamp` are the available input
and output sizes in scalar samples; the frame budget is their minimum divided by
the channel count.  Returns the updated state, the frames written to `obuf`, the
consumed and produced counts in scalar samples (frames times channels, as
accumulated by `*isamp += chunk * channels` / `*osamp += chunk * channels`), and
the status. -/
def flow {α : Type} (channels : Nat) (st : TrimState) (ibuf : List α)
    (isamp osamp : Nat) : Option (TrimState × List α × Nat × Nat × FlowStatus) :=
  let len : Nat := min isamp osamp / channels
  (flowLoop st.markers (len + st.markers.length + 2) st.current_pos st.samples_read
      st.copying ibuf len).map
    (fun r =>
      (⟨st.markers, r.1, r.2.1, r.2.2.1⟩, r.2.2.2.1,
        r.2.2.2.2.1 * channels, r.2.2.2.1.length * channels, r.2.2.2.2.2))

/-- Function `drain` (trim.c lines 181-189): zero output samples, a warning payload
`some (num_pos - current_pos)` exactly when the cursor has not exhausted the
markers ("Audio shorter than expected; last %u positions not reached."), and
always `SOX_EOF`. -/
def drain (st : TrimState) : Nat × Option Nat × FlowStatus :=
  (0,
    if st.current_pos < st.markers.length then
      some (st.markers.length - st.current_pos)
    else none,
    FlowStatus.eof)

/-- Function `sox_trim_get_start` (trim.c lines 221-225): the first marker's frame offset
in scalar (non-wide) samples, 0 when there are no positions. -/
def sox_trim_get_start (channels : Nat) (st : TrimState) : Nat :=
  if st.markers.length ≠ 0 then st.markers.getD 0 0 * channels else 0

/-- Function `sox_trim_clear_start` (trim.c lines 227-231): fast-forward `samples_read`
to the first marker's frame offset (0 when there are no positions). -/
def sox_trim_clear_start (st : TrimState) : TrimState :=
  { st with samples_read := if st.markers.length ≠ 0 then st.markers.getD 0 0 else 0 }

/-- Feed a list of buffers through `flow` one after the other (each call offered
exactly its buffer's size on both sides), concatenating the emitted frames.
Statuses are ignored: a call made after `SOX_EOF` consumes and produces nothing
and leaves the state unchanged, so this also models a host that stops at EOF. -/
def runChunks {α : Type} (channels : Nat) (st : TrimState) :
    List (List α) → Option (TrimState × List α)
  | [] => some (st, [])
  | c :: cs => do
    let r ← flow channels st c (c.length * channels) (c.length * channels)
    let s ← runChunks channels r.1 cs
    return (s.1, r.2.1 ++ s.2)

/-! ## Specification-side functions used to state the theorems -/

/-- A frame index `t` lies in a kept span iff an odd number of markers are `≤ t`. -/
def keptFrame (markers : List Nat) (t : Nat) : Bool :=
  decide (markers.countP (fun m => decide (m ≤ t)) % 2 = 1)

/-- The frames of `l` (whose first element sits at absolute frame index `sr`)
that lie in kept spans. -/
def selectKept {α : Type} (markers : List Nat) : Nat → List α → List α
  | _, [] => []
  | sr, x :: xs => (if keptFrame markers sr then [x] else []) ++ selectKept markers (sr + 1) xs

/-- The frame index past which a flow from `samples_read = sr` cannot consume
when the marker count is even: the last marker (or `sr` itself if already past). -/
def stopPos (markers : List Nat) (sr : Nat) : Nat :=
  max (markers.getD (markers.length - 1) 0) sr

/-- Frames consumed by one `flow` whose frame budget is `len`, starting from
`samples_read = sr`: everything, except that an even marker count stops the
loop at the last marker. -/
def flowConsumed (markers : List Nat) (sr len : Nat) : Nat :=
  if markers.length % 2 = 0 then min len (stopPos markers sr - sr) else len

/-- Whether one `flow` with frame budget `len` from `samples_read = sr` ends in
`SOX_EOF`: the marker count is even and the budget strictly exceeds the distance
to the last marker. -/
def flowEofB (markers : List Nat) (sr len : Nat) : Bool :=
  decide (markers.length % 2 = 0) && decide (stopPos markers sr - sr < len)

/-- The cursor after one `flow` with frame budget `len` from cursor `cp`,
`samples_read = sr`: all markers on EOF, otherwise every marker strictly below
the new `samples_read` (markers equal to it stay pending until the next call). -/
def flowCp (markers : List Nat) (cp sr len : Nat) : Nat :=
  if flowEofB markers sr len then markers.length
  else max cp (markers.countP (fun m => decide (m < sr + flowConsumed markers sr len)))

/-- Invariant of every reachable streaming state: markers sorted, cursor within
bounds, `copying` is the cursor's parity, markers behind the cursor are at or
before `samples_read`, markers at or past the cursor are at or after it. -/
def Inv (markers : List Nat) (cp sr : Nat) (copying : Bool) : Prop :=
  List.Sorted (· ≤ ·) markers ∧
  cp ≤ markers.length ∧
  copying = decide (cp % 2 = 1) ∧
  (∀ m ∈ markers.take cp, m ≤ sr) ∧
  (∀ m ∈ markers.drop cp, sr ≤ m)

instance (markers : List Nat) (cp sr : Nat) (copying : Bool) :
    Decidable (Inv markers cp sr copying) := by
  unfold Inv
  infer_instance

/-- Frames kept among the `len` frames starting at absolute frame index `sr`. -/
def keptCount (markers : List Nat) : Nat → Nat → Nat
  | _, 0 => 0
  | sr, len + 1 => (if keptFrame markers sr then 1 else 0) + keptCount markers (sr + 1) len

/-! ## Helper lemmas: lists, counts, sorted sequences -/

theorem getD_eq_getElem {l : List Nat} {k : Nat} (h : k < l.length) :
    l.getD k 0 = l[k] := by
  rw [List.getD_eq_getElem?_getD, List.getElem?_eq_getElem h, Option.getD_some]

theorem getD_mem_of_lt {l : List Nat} {k : Nat} (h : k < l.length) :
    l.getD k 0 ∈ l := by
  rw [getD_eq_getElem h]
  exact List.getElem_mem h

theorem le_countP_of_take {p : Nat → Bool} {l : List Nat} {k : Nat}
    (hk : k ≤ l.length) (h : ∀ m ∈ l.take k, p m = true) : k ≤ l.countP p := by
  have h1 : l.countP p = (l.take k).countP p + (l.drop k).countP p := by
    rw [← List.countP_append, List.take_append_drop]
  have h2 : (l.take k).countP p = (l.take k).length := List.countP_eq_length.mpr h
  have h3 : (l.take k).length = min k l.length := List.length_take k l
  omega

theorem countP_le_of_drop {p : Nat → Bool} {l : List Nat} {k : Nat}
    (h : ∀ m ∈ l.drop k, p m = false) : l.countP p ≤ k := by
  have h1 : l.countP p = (l.take k).countP p + (l.drop k).countP p := by
    rw [← List.countP_append, List.take_append_drop]
  have h2 : (l.drop k).countP p = 0 := by
    refine List.countP_eq_zero.mpr ?_
    intro a ha
    simp [h a ha]
  have h3 : (l.take k).countP p ≤ (l.take k).length := List.countP_le_length p
  have h4 : (l.take k).length = min k l.length := List.length_take k l
  omega

theorem sorted_mem_le_last {l : List Nat} (hs : List.Sorted (· ≤ ·) l) {m : Nat}
    (hm : m ∈ l) : m ≤ l.getD (l.length - 1) 0 := by
  induction l with
  | nil => cases hm
  | cons a t ih =>
    cases t with
    | nil =>
      rcases List.mem_cons.mp hm with rfl | h
      · simp
      · cases h
    | cons b t2 =>
      have hlen : (a :: b :: t2).length - 1 = ((b :: t2).length - 1) + 1 := by
        simp
      have hlast : (a :: b :: t2).getD ((a :: b :: t2).length - 1) 0 =
          (b :: t2).getD ((b :: t2).length - 1) 0 := by
        rw [hlen, List.getD_cons_succ]
      rw [hlast]
      rcases List.mem_cons.mp hm with rfl | hmt
      · exact (List.sorted_cons.mp hs).1 _
          (getD_mem_of_lt (by simp))
      · exact ih (List.sorted_cons.mp hs).2 hmt

theorem mem_take_countP_lt {l : List Nat} (hs : List.Sorted (· ≤ ·) l) (x : Nat) :
    ∀ m ∈ l.take (l.countP (fun m => decide (m < x))), m < x := by
  induction l with
  | nil => intro m hm; simp at hm
  | cons a t ih =>
    obtain ⟨hat, hst⟩ := List.sorted_cons.mp hs
    by_cases hax : a < x
    · have hcount : (a :: t).countP (fun m => decide (m < x)) =
          t.countP (fun m => decide (m < x)) + 1 := by
        rw [List.countP_cons]
        simp [hax]
      rw [hcount]
      intro m hm
      rw [List.take_succ_cons] at hm
      rcases List.mem_cons.mp hm with rfl | hmt
      · exact hax
      · exact ih hst m hmt
    · have h0 : (a :: t).countP (fun m => decide (m < x)) = 0 := by
        refine List.countP_eq_zero.mpr ?_
        intro b hb
        rcases List.mem_cons.mp hb with rfl | hbt
        · simpa using hax
        · have : a ≤ b := hat b hbt
          simp only [decide_eq_true_eq]
          omega
      rw [h0]
      intro m hm
      simp at hm

theorem mem_drop_countP_lt {l : List Nat} (hs : List.Sorted (· ≤ ·) l) (x : Nat) :
    ∀ m ∈ l.drop (l.countP (fun m => decide (m < x))), x ≤ m := by
  induction l with
  | nil => intro m hm; simp at hm
  | cons a t ih =>
    obtain ⟨hat, hst⟩ := List.sorted_cons.mp hs
    by_cases hax : a < x
    · have hcount : (a :: t).countP (fun m => decide (m < x)) =
          t.countP (fun m => decide (m < x)) + 1 := by
        rw [List.countP_cons]
        simp [hax]
      rw [hcount]
      intro m hm
      rw [List.drop_succ_cons] at hm
      exact ih hst m hm
    · have h0 : (a :: t).countP (fun m => decide (m < x)) = 0 := by
        refine List.countP_eq_zero.mpr ?_
        intro b hb
        rcases List.mem_cons.mp hb with rfl | hbt
        · simpa using hax
        · have : a ≤ b := hat b hbt
          simp only [decide_eq_true_eq]
          omega
      rw [h0]
      intro m hm
      rw [List.drop_zero] at hm
      rcases List.mem_cons.mp hm with rfl | hmt
      · omega
      · have : a ≤ m := hat m hmt
        omega

/-! ## Helper lemmas: kept frames and kept counts -/

theorem keptFrame_eq_of_countP {markers : List Nat} {t k : Nat}
    (h : markers.countP (fun m => decide (m ≤ t)) = k) :
    keptFrame markers t = decide (k % 2 = 1) := by
  unfold keptFrame
  rw [h]

theorem keptFrame_of_all_le {markers : List Nat} {t : Nat}
    (h : ∀ m ∈ markers, m ≤ t) :
    keptFrame markers t = decide (markers.length % 2 = 1) := by
  refine keptFrame_eq_of_countP (List.countP_eq_length.mpr ?_)
  intro a ha
  simpa using h a ha

theorem keptFrame_of_all_gt {markers : List Nat} {t : Nat}
    (h : ∀ m ∈ markers, t < m) : keptFrame markers t = false := by
  have h0 : markers.countP (fun m => decide (m ≤ t)) = 0 := by
    refine List.countP_eq_zero.mpr ?_
    intro a ha
    have := h a ha
    simp only [decide_eq_true_eq]
    omega
  rw [keptFrame_eq_of_countP h0]
  simp

theorem keptCount_add (markers : List Nat) (a : Nat) :
    ∀ (sr b : Nat), keptCount markers sr (a + b) =
      keptCount markers sr a + keptCount markers (sr + a) b := by
  induction a with
  | zero => intro sr b; simp [keptCount]
  | succ a ih =>
    intro sr b
    have h1 : a + 1 + b = (a + b) + 1 := by omega
    rw [h1]
    show (if keptFrame markers sr then 1 else 0) + keptCount markers (sr + 1) (a + b) = _
    rw [ih (sr + 1)]
    show _ = (if keptFrame markers sr then 1 else 0) + keptCount markers (sr + 1) a +
      keptCount markers (sr + (a + 1)) b
    have h2 : sr + 1 + a = sr + (a + 1) := by omega
    rw [h2]
    omega

theorem keptCount_congr {m1 m2 : List Nat} {sr1 sr2 : Nat} (len : Nat)
    (h : ∀ k, k < len → keptFrame m1 (sr1 + k) = keptFrame m2 (sr2 + k)) :
    keptCount m1 sr1 len = keptCount m2 sr2 len := by
  induction len generalizing sr1 sr2 with
  | zero => rfl
  | succ len ih =>
    show (if keptFrame m1 sr1 then 1 else 0) + keptCount m1 (sr1 + 1) len =
      (if keptFrame m2 sr2 then 1 else 0) + keptCount m2 (sr2 + 1) len
    have h0 : keptFrame m1 sr1 = keptFrame m2 sr2 := by
      have := h 0 (by omega)
      simpa using this
    rw [h0, ih (fun k hk => by
      have := h (k + 1) (by omega)
      have e1 : sr1 + (k + 1) = sr1 + 1 + k := by omega
      have e2 : sr2 + (k + 1) = sr2 + 1 + k := by omega
      rw [e1, e2] at this
      exact this)]

theorem keptCount_of_false {markers : List Nat} {sr len : Nat}
    (h : ∀ k, k < len → keptFrame markers (sr + k) = false) :
    keptCount markers sr len = 0 := by
  induction len generalizing sr with
  | zero => rfl
  | succ len ih =>
    show (if keptFrame markers sr then 1 else 0) + keptCount markers (sr + 1) len = 0
    have h0 : keptFrame markers sr = false := by simpa using h 0 (by omega)
    rw [h0, ih (fun k hk => by
      have := h (k + 1) (by omega)
      have e1 : sr + (k + 1) = sr + 1 + k := by omega
      rw [e1] at this
      exact this)]
    simp

theorem keptCount_of_true {markers : List Nat} {sr len : Nat}
    (h : ∀ k, k < len → keptFrame markers (sr + k) = true) :
    keptCount markers sr len = len := by
  induction len generalizing sr with
  | zero => rfl
  | succ len ih =>
    show (if keptFrame markers sr then 1 else 0) + keptCount markers (sr + 1) len = len + 1
    have h0 : keptFrame markers sr = true := by simpa using h 0 (by omega)
    rw [h0, ih (fun k hk => by
      have := h (k + 1) (by omega)
      have e1 : sr + (k + 1) = sr + 1 + k := by omega
      rw [e1] at this
      exact this)]
    simp
    omega

theorem selectKept_length {α : Type} (markers : List Nat) :
    ∀ (sr : Nat) (l : List α),
      (selectKept markers sr l).length = keptCount markers sr l.length := by
  intro sr l
  induction l generalizing sr with
  | nil => rfl
  | cons x xs ih =>
    show ((if keptFrame markers sr then [x] else []) ++ selectKept markers (sr + 1) xs).length =
      (if keptFrame markers sr then 1 else 0) + keptCount markers (sr + 1) xs.length
    rw [List.length_append, ih (sr + 1)]
    by_cases h : keptFrame markers sr
    · simp [h]
    · simp [h]

theorem selectKept_append {α : Type} (markers : List Nat) :
    ∀ (sr : Nat) (l1 l2 : List α),
      selectKept markers sr (l1 ++ l2) =
        selectKept markers sr l1 ++ selectKept markers (sr + l1.length) l2 := by
  intro sr l1
  induction l1 generalizing sr with
  | nil => intro l2; simp [selectKept]
  | cons x xs ih =>
    intro l2
    show (if keptFrame markers sr then [x] else []) ++ selectKept markers (sr + 1) (xs ++ l2) = _
    rw [ih (sr + 1) l2]
    show _ = (if keptFrame markers sr then [x] else []) ++ selectKept markers (sr + 1) xs ++
      selectKept markers (sr + (x :: xs).length) l2
    have e : sr + 1 + xs.length = sr + (x :: xs).length := by simp; omega
    rw [List.append_assoc, e]

theorem selectKept_of_const {α : Type} {markers : List Nat} {sr : Nat} {l : List α} {b : Bool}
    (h : ∀ k, k < l.length → keptFrame markers (sr + k) = b) :
    selectKept markers sr l = if b then l else [] := by
  induction l generalizing sr with
  | nil => cases b <;> rfl
  | cons x xs ih =>
    show (if keptFrame markers sr then [x] else []) ++ selectKept markers (sr + 1) xs = _
    have h0 : keptFrame markers sr = b := by simpa using h 0 (by simp)
    rw [h0, ih (fun k hk => by
      have := h (k + 1) (by simp; omega)
      have e1 : sr + (k + 1) = sr + 1 + k := by omega
      rw [e1] at this
      exact this)]
    cases b <;> simp

/-- Kept frames below `T` for a sorted marker list whose last marker is at most
`T`: the sum of the kept pair spans plus, for an odd marker count, the open
trailing span. -/
theorem keptCount_pairs : ∀ (markers : List Nat), List.Sorted (· ≤ ·) markers →
    ∀ (T : Nat), markers.getD (markers.length - 1) 0 ≤ T →
    keptCount markers 0 T = pairSum markers +
      (if markers.length % 2 = 1 then T - markers.getD (markers.length - 1) 0 else 0)
  | [], _, T, _ => by
    have h0 : keptCount [] 0 T = 0 := by
      refine keptCount_of_false ?_
      intro k _
      refine keptFrame_of_all_gt ?_
      intro m hm
      cases hm
    rw [h0]
    rfl
  | [a], _, T, hT => by
    have ha : [a].getD ([a].length - 1) 0 = a := by rfl
    rw [ha] at hT
    have h0 : keptCount [a] 0 a = 0 := by
      refine keptCount_of_false ?_
      intro k hk
      refine keptFrame_of_all_gt ?_
      intro m hm
      rcases List.mem_singleton.mp hm with rfl
      omega
    have h1 : keptCount [a] a (T - a) = T - a := by
      refine keptCount_of_true ?_
      intro k _
      have hall : ∀ m ∈ [a], m ≤ a + k := by
        intro m hm
        rcases List.mem_singleton.mp hm with rfl
        omega
      rw [keptFrame_of_all_le hall]
      rfl
    have hkc : keptCount [a] 0 T = keptCount [a] 0 a + keptCount [a] a (T - a) := by
      have h := keptCount_add [a] a 0 (T - a)
      have he : a + (T - a) = T := by omega
      rw [he] at h
      simpa using h
    rw [hkc, h0, h1, ha]
    have h2 : pairSum [a] = 0 := rfl
    rw [h2]
    simp
  | a :: b :: rest, hs, T, hT => by
    obtain ⟨hat, hs1⟩ := List.sorted_cons.mp hs
    obtain ⟨hbr, hs2⟩ := List.sorted_cons.mp hs1
    have hab : a ≤ b := hat b (List.mem_cons_self b rest)
    have hbT : b ≤ T := by
      have hbm : b ∈ a :: b :: rest := List.mem_cons_of_mem a (List.mem_cons_self b rest)
      exact le_trans (sorted_mem_le_last hs hbm) hT
    have kf : ∀ t, keptFrame (a :: b :: rest) t =
        if b ≤ t then keptFrame rest t else decide (a ≤ t) := by
      intro t
      by_cases hbt : b ≤ t
      · have hcc : (a :: b :: rest).countP (fun m => decide (m ≤ t)) =
            rest.countP (fun m => decide (m ≤ t)) + 2 := by
          rw [List.countP_cons, List.countP_cons]
          have hatle : a ≤ t := le_trans hab hbt
          simp [hbt, hatle]
        rw [keptFrame_eq_of_countP hcc, if_pos hbt]
        unfold keptFrame
        exact decide_eq_decide.mpr (by omega)
      · have h0 : rest.countP (fun m => decide (m ≤ t)) = 0 := by
          refine List.countP_eq_zero.mpr ?_
          intro m hm
          have := hbr m hm
          simp only [decide_eq_true_eq]
          omega
        have hcc : (a :: b :: rest).countP (fun m => decide (m ≤ t)) =
            if a ≤ t then 1 else 0 := by
          rw [List.countP_cons, List.countP_cons, h0]
          simp [hbt]
        rw [if_neg hbt]
        unfold keptFrame
        rw [hcc]
        by_cases hatle : a ≤ t
        · simp [hatle]
        · simp [hatle]
    have hsplitT : T = b + (T - b) := by omega
    have hsplitb : b = a + (b - a) := by omega
    have hterm1 : keptCount (a :: b :: rest) 0 a = 0 := by
      refine keptCount_of_false ?_
      intro k hk
      rw [kf]
      have hk1 : ¬ b ≤ 0 + k := by omega
      rw [if_neg hk1]
      simp only [decide_eq_false_iff_not]
      omega
    have hterm2 : keptCount (a :: b :: rest) a (b - a) = b - a := by
      refine keptCount_of_true ?_
      intro k hk
      rw [kf]
      have hk1 : ¬ b ≤ a + k := by omega
      rw [if_neg hk1]
      simp only [decide_eq_true_eq]
      omega
    have hterm3 : keptCount (a :: b :: rest) b (T - b) = keptCount rest b (T - b) := by
      refine keptCount_congr _ ?_
      intro k _
      rw [kf]
      have : b ≤ b + k := by omega
      rw [if_pos this]
    have hrest0 : keptCount rest 0 b = 0 := by
      refine keptCount_of_false ?_
      intro k hk
      refine keptFrame_of_all_gt ?_
      intro m hm
      have := hbr m hm
      omega
    have hrestlast : rest.getD (rest.length - 1) 0 ≤ T := by
      cases rest with
      | nil => simp
      | cons c rs =>
        have hmem : (c :: rs).getD ((c :: rs).length - 1) 0 ∈ a :: b :: c :: rs := by
          have : (c :: rs).getD ((c :: rs).length - 1) 0 ∈ c :: rs :=
            getD_mem_of_lt (by simp)
          exact List.mem_cons_of_mem a (List.mem_cons_of_mem b this)
        exact le_trans (sorted_mem_le_last hs hmem) hT
    have ih := keptCount_pairs rest hs2 T hrestlast
    have hadd1 : keptCount (a :: b :: rest) 0 T =
        keptCount (a :: b :: rest) 0 b + keptCount (a :: b :: rest) b (T - b) := by
      have h := keptCount_add (a :: b :: rest) b 0 (T - b)
      rw [← hsplitT] at h
      simpa using h
    have hfirst : keptCount (a :: b :: rest) 0 b = b - a := by
      have h := keptCount_add (a :: b :: rest) a 0 (b - a)
      rw [← hsplitb] at h
      simp only [Nat.zero_add] at h
      rw [h, hterm1, hterm2]
      omega
    have hrest_split : keptCount rest 0 T = keptCount rest 0 b + keptCount rest b (T - b) := by
      have h := keptCount_add rest b 0 (T - b)
      rw [← hsplitT] at h
      simpa using h
    have hkr : keptCount rest b (T - b) = keptCount rest 0 T := by
      rw [hrest_split, hrest0]
      omega
    have hpair : pairSum (a :: b :: rest) = (b - a) + pairSum rest := rfl
    rw [hadd1, hfirst, hterm3, hkr, ih, hpair]
    have hparity : (a :: b :: rest).length % 2 = rest.length % 2 := by
      simp only [List.length_cons]
      omega
    cases rest with
    | nil =>
      simp [pairSum]
    | cons c rs =>
      have hlasteq : (a :: b :: c :: rs).getD ((a :: b :: c :: rs).length - 1) 0 =
          (c :: rs).getD ((c :: rs).length - 1) 0 := by
        have hl : (a :: b :: c :: rs).length - 1 = (((c :: rs).length - 1) + 1) + 1 := by
          simp
        rw [hl, List.getD_cons_succ, List.getD_cons_succ]
      have hif : (if (a :: b :: c :: rs).length % 2 = 1 then
            T - (a :: b :: c :: rs).getD ((a :: b :: c :: rs).length - 1) 0 else 0) =
          (if (c :: rs).length % 2 = 1 then
            T - (c :: rs).getD ((c :: rs).length - 1) 0 else 0) := by
        rw [hlasteq]
        by_cases hp : (c :: rs).length % 2 = 1
        · rw [if_pos hp, if_pos (by rw [hparity]; exact hp)]
        · rw [if_neg hp, if_neg (by rw [hparity]; exact hp)]
      omega

/-! ## Helper lemmas: the streaming invariant and the flow characterization -/

theorem not_parity (cp : Nat) : (!decide (cp % 2 = 1)) = decide ((cp + 1) % 2 = 1) := by
  by_cases h : cp % 2 = 1
  · have h1 : ¬ (cp + 1) % 2 = 1 := by omega
    simp [h, h1]
  · have h1 : (cp + 1) % 2 = 1 := by omega
    simp [h, h1]

theorem Inv_toggle {markers : List Nat} {cp sr : Nat} {copying : Bool}
    (hInv : Inv markers cp sr copying)
    (hcp : cp < markers.length) (hsr : sr = markers.getD cp 0) :
    Inv markers (cp + 1) sr (!copying) := by
  obtain ⟨hs, hle, hcopy, htake, hdrop⟩ := hInv
  refine ⟨hs, by omega, by rw [hcopy]; exact not_parity cp, ?_, ?_⟩
  · intro m hm
    rw [List.take_succ, List.getElem?_eq_getElem hcp] at hm
    rcases List.mem_append.mp hm with h | h
    · exact htake m h
    · simp only [Option.toList_some, List.mem_singleton] at h
      subst h
      rw [hsr, getD_eq_getElem hcp]
  · intro m hm
    have hmem : m ∈ markers.drop cp := by
      rw [List.drop_eq_getElem_cons hcp]
      exact List.mem_cons_of_mem _ hm
    exact hdrop m hmem

theorem Inv_advance {markers : List Nat} {cp1 sr chunk : Nat} {copying1 : Bool}
    (hInv1 : Inv markers cp1 sr copying1)
    (hch : ∀ m ∈ markers.drop cp1, sr + chunk ≤ m) :
    Inv markers cp1 (sr + chunk) copying1 := by
  obtain ⟨hs, hle, hcopy, htake, hdrop⟩ := hInv1
  exact ⟨hs, hle, hcopy, fun m hm => le_trans (htake m hm) (by omega), hch⟩

/-- One loop iteration of `flow` composes with the closed-form flow formulas:
from a post-toggle state `(cp1, sr, copying1)` satisfying the invariant that did
not hit the end-of-stream exit, processing the iteration's `chunk` turns the
formulas for the pre-toggle cursor `cp` at `(sr, len)` into the formulas at
`(sr + chunk, len - chunk)`. -/
theorem flow_formula_step {markers : List Nat} {cp cp1 sr len chunk : Nat} {copying1 : Bool}
    (hInv1 : Inv markers cp1 sr copying1)
    (hlen : 0 < len)
    (hnoeof : ¬ (markers.length ≤ cp1 ∧ copying1 = false))
    (hcp1 : cp = cp1 ∨ (cp + 1 = cp1 ∧ cp < markers.length))
    (hchunk : chunk = if cp1 < markers.length then min len (markers.getD cp1 0 - sr) else len) :
    flowConsumed markers sr len = chunk + flowConsumed markers (sr + chunk) (len - chunk) ∧
    flowEofB markers sr len = flowEofB markers (sr + chunk) (len - chunk) ∧
    flowCp markers cp sr len = flowCp markers cp1 (sr + chunk) (len - chunk) ∧
    (∀ k, k < chunk → keptFrame markers (sr + k) = copying1) ∧
    chunk ≤ len ∧
    (∀ m ∈ markers.drop cp1, sr + chunk ≤ m) := by
  obtain ⟨hs, hcpn, hcopy, htake, hdrop⟩ := hInv1
  by_cases hcn : cp1 < markers.length
  · -- the cursor still points at a marker
    have hchunk' : chunk = min len (markers.getD cp1 0 - sr) := by rw [hchunk, if_pos hcn]
    have hgdrop : markers.drop cp1 = markers.getD cp1 0 :: markers.drop (cp1 + 1) := by
      rw [getD_eq_getElem hcn]
      exact List.drop_eq_getElem_cons hcn
    have hsrg : sr ≤ markers.getD cp1 0 := by
      refine hdrop _ ?_
      rw [hgdrop]
      exact List.mem_cons_self _ _
    have hglast : markers.getD cp1 0 ≤ markers.getD (markers.length - 1) 0 :=
      sorted_mem_le_last hs (getD_mem_of_lt hcn)
    have hsrchunk : sr + chunk ≤ markers.getD cp1 0 := by
      rw [hchunk']
      omega
    have hchunkle : chunk ≤ len := by
      rw [hchunk']
      omega
    have hstop : stopPos markers sr = markers.getD (markers.length - 1) 0 := by
      unfold stopPos
      omega
    have hstop' : stopPos markers (sr + chunk) = markers.getD (markers.length - 1) 0 := by
      unfold stopPos
      omega
    have hdropfact : ∀ m ∈ markers.drop cp1, sr + chunk ≤ m := by
      intro m hm
      rw [hgdrop] at hm
      rcases List.mem_cons.mp hm with rfl | h
      · exact hsrchunk
      · have hsd : List.Sorted (· ≤ ·) (markers.drop cp1) :=
          List.Pairwise.sublist (List.drop_sublist cp1 markers) hs
        rw [hgdrop] at hsd
        have := (List.sorted_cons.mp hsd).1 m h
        omega
    have hkeep : ∀ k, k < chunk → keptFrame markers (sr + k) = copying1 := by
      intro k hk
      have h1 : cp1 ≤ markers.countP (fun m => decide (m ≤ sr + k)) := by
        refine le_countP_of_take (by omega) ?_
        intro m hm
        have := htake m hm
        simp only [decide_eq_true_eq]
        omega
      have h2 : markers.countP (fun m => decide (m ≤ sr + k)) ≤ cp1 := by
        refine countP_le_of_drop ?_
        intro m hm
        have := hdropfact m hm
        simp only [decide_eq_false_iff_not]
        omega
      rw [keptFrame_eq_of_countP (le_antisymm h2 h1), hcopy]
    have hcons : flowConsumed markers sr len =
        chunk + flowConsumed markers (sr + chunk) (len - chunk) := by
      unfold flowConsumed
      rw [hstop, hstop']
      by_cases hpar : markers.length % 2 = 0
      · rw [if_pos hpar, if_pos hpar]
        rw [hchunk'] at hsrchunk ⊢
        omega
      · rw [if_neg hpar, if_neg hpar]
        omega
    have heofeq : flowEofB markers sr len = flowEofB markers (sr + chunk) (len - chunk) := by
      unfold flowEofB
      rw [hstop, hstop']
      by_cases hpar : markers.length % 2 = 0
      · have h1 : decide (markers.length % 2 = 0) = true := by simp [hpar]
        rw [h1, Bool.true_and, Bool.true_and]
        refine decide_eq_decide.mpr ?_
        have h2 := hchunk'
        omega
      · have h1 : decide (markers.length % 2 = 0) = false := by simp [hpar]
        rw [h1, Bool.false_and, Bool.false_and]
    have hcpeq : flowCp markers cp sr len = flowCp markers cp1 (sr + chunk) (len - chunk) := by
      unfold flowCp
      rw [← heofeq]
      by_cases heof : flowEofB markers sr len = true
      · rw [if_pos heof, if_pos heof]
      · rw [if_neg heof, if_neg heof]
        have harith : sr + chunk + flowConsumed markers (sr + chunk) (len - chunk) =
            sr + flowConsumed markers sr len := by
          omega
        rw [harith]
        rcases hcp1 with rfl | ⟨hfire, hcplt⟩
        · rfl
        · have hCpos : 0 < flowConsumed markers sr len := by
            unfold flowEofB at heof
            simp only [Bool.and_eq_true, decide_eq_true_eq, not_and] at heof
            unfold flowConsumed
            by_cases hpar : markers.length % 2 = 0
            · rw [if_pos hpar]
              have h3 := heof hpar
              omega
            · rw [if_neg hpar]
              omega
          have hge : cp1 ≤ markers.countP
              (fun m => decide (m < sr + flowConsumed markers sr len)) := by
            refine le_countP_of_take (by omega) ?_
            intro m hm
            have := htake m hm
            simp only [decide_eq_true_eq]
            omega
          omega
    exact ⟨hcons, heofeq, hcpeq, hkeep, hchunkle, hdropfact⟩
  · -- the cursor has exhausted the markers (odd count, still copying)
    have hcpeqn : cp1 = markers.length := by omega
    have hcopy1 : copying1 = true := by
      rcases Bool.eq_false_or_eq_true copying1 with h | h
      · exact h
      · exact absurd ⟨by omega, h⟩ hnoeof
    have hodd : markers.length % 2 = 1 := by
      have hd : decide (cp1 % 2 = 1) = true := by rw [← hcopy, hcopy1]
      have := of_decide_eq_true hd
      omega
    have hchunk' : chunk = len := by rw [hchunk, if_neg hcn]
    have htakeall : ∀ m ∈ markers, m ≤ sr := by
      intro m hm
      refine htake m ?_
      rw [List.take_of_length_le (by omega)]
      exact hm
    have hdropnil : markers.drop cp1 = [] := List.drop_eq_nil_of_le (by omega)
    have hkeep : ∀ k, k < chunk → keptFrame markers (sr + k) = copying1 := by
      intro k _
      rw [keptFrame_of_all_le (fun m hm => le_trans (htakeall m hm) (by omega)), hodd, hcopy1]
      rfl
    have hcons : flowConsumed markers sr len =
        chunk + flowConsumed markers (sr + chunk) (len - chunk) := by
      unfold flowConsumed
      rw [if_neg (by omega), if_neg (by omega)]
      omega
    have heofeq : flowEofB markers sr len = flowEofB markers (sr + chunk) (len - chunk) := by
      unfold flowEofB
      simp [hodd]
    have hcountn : markers.countP
        (fun m => decide (m < sr + flowConsumed markers sr len)) = markers.length := by
      have hCpos : flowConsumed markers sr len = len := by
        unfold flowConsumed
        rw [if_neg (by omega)]
      refine le_antisymm (List.countP_le_length _) ?_
      refine le_countP_of_take (by omega) ?_
      intro m hm
      rw [List.take_of_length_le (le_refl _)] at hm
      have := htakeall m hm
      simp only [decide_eq_true_eq]
      omega
    have hcpeq : flowCp markers cp sr len = flowCp markers cp1 (sr + chunk) (len - chunk) := by
      unfold flowCp
      rw [← heofeq]
      have heoff : flowEofB markers sr len = false := by
        unfold flowEofB
        simp [hodd]
      rw [heoff]
      simp only [Bool.false_eq_true, if_false]
      have harith : sr + chunk + flowConsumed markers (sr + chunk) (len - chunk) =
          sr + flowConsumed markers sr len := by
        omega
      rw [harith, hcountn]
      omega
    refine ⟨hcons, heofeq, hcpeq, hkeep, by omega, ?_⟩
    rw [hdropnil]
    intro m hm
    cases hm

theorem selectKept_nil {α : Type} (markers : List Nat) (sr : Nat) :
    selectKept markers sr ([] : List α) = [] := rfl

/-- Closed-form characterization of the flow loop: on any state satisfying the
reachable-state invariant, with enough fuel and enough input frames, the loop
returns exactly the cursor, position, copying flag, emitted frames, consumed
count and status given by the specification formulas. -/
theorem flowLoop_spec {α : Type} (fuel : Nat) :
    ∀ (markers : List Nat) (cp sr : Nat) (copying : Bool) (ibuf : List α) (len : Nat),
    Inv markers cp sr copying →
    len + (markers.length - cp) + 1 ≤ fuel →
    len ≤ ibuf.length →
    flowLoop markers fuel cp sr copying ibuf len =
      some (flowCp markers cp sr len, sr + flowConsumed markers sr len,
        decide (flowCp markers cp sr len % 2 = 1),
        selectKept markers sr (ibuf.take (flowConsumed markers sr len)),
        flowConsumed markers sr len,
        if flowEofB markers sr len then FlowStatus.eof else FlowStatus.success) := by
  induction fuel with
  | zero =>
    intro markers cp sr copying ibuf len _ hfuel _
    omega
  | succ fuel ih =>
    intro markers cp sr copying ibuf len hInv hfuel hibuf
    cases len with
    | zero =>
      obtain ⟨hs, hcpn, hcopy, htake, hdrop⟩ := hInv
      have hC : flowConsumed markers sr 0 = 0 := by
        unfold flowConsumed
        split <;> omega
      have hE : flowEofB markers sr 0 = false := by
        unfold flowEofB
        simp
      have hCp : flowCp markers cp sr 0 = cp := by
        unfold flowCp
        rw [hE]
        simp only [Bool.false_eq_true, if_false]
        have h1 : markers.countP (fun m => decide (m < sr + flowConsumed markers sr 0)) ≤ cp := by
          refine countP_le_of_drop ?_
          intro m hm
          have := hdrop m hm
          simp only [decide_eq_false_iff_not]
          omega
        omega
      rw [hC, hE, hCp]
      show some (cp, sr, copying, [], 0, FlowStatus.success) = _
      rw [hcopy]
      simp [selectKept_nil]
    | succ len =>
      simp only [flowLoop]
      by_cases hfire : cp < markers.length ∧ sr = markers.getD cp 0
      · rw [if_pos hfire, if_pos hfire]
        have hInv1 : Inv markers (cp + 1) sr (!copying) := Inv_toggle hInv hfire.1 hfire.2
        obtain ⟨hs, hcpn, hcopy, htake, hdrop⟩ := hInv
        by_cases heof : markers.length ≤ cp + 1 ∧ (!copying) = false
        · rw [if_pos heof]
          have hn : markers.length = cp + 1 := by omega
          have hcopyT : copying = true := by
            rcases heof with ⟨_, h2⟩
            revert h2
            cases copying <;> simp
          have hodd : cp % 2 = 1 := by
            rw [hcopyT] at hcopy
            exact of_decide_eq_true hcopy.symm
          have heven : markers.length % 2 = 0 := by omega
          have hlast : markers.getD (markers.length - 1) 0 = sr := by
            have h1 : markers.length - 1 = cp := by omega
            rw [h1, ← hfire.2]
          have hstop : stopPos markers sr = sr := by
            unfold stopPos
            rw [hlast]
            omega
          have hC : flowConsumed markers sr (len + 1) = 0 := by
            unfold flowConsumed
            rw [hstop, if_pos heven]
            omega
          have hE : flowEofB markers sr (len + 1) = true := by
            unfold flowEofB
            rw [hstop]
            have h1 : sr - sr < len + 1 := by omega
            simp [heven, h1]
          have hCp : flowCp markers cp sr (len + 1) = cp + 1 := by
            unfold flowCp
            rw [hE, if_pos rfl]
            omega
          have hpar : decide ((cp + 1) % 2 = 1) = false := by
            have h1 : ¬ (cp + 1) % 2 = 1 := by omega
            simp [h1]
          rw [hC, hE, hCp, hpar]
          simp [selectKept_nil, hcopyT]
        · rw [if_neg heof]
          set chunk : Nat :=
            if cp + 1 < markers.length then min (len + 1) (markers.getD (cp + 1) 0 - sr)
            else len + 1 with hchunkdef
          have hstep := flow_formula_step hInv1 (show 0 < len + 1 by omega) heof
            (Or.inr ⟨rfl, hfire.1⟩) hchunkdef
          obtain ⟨hcons, heofeq, hcpeq, hkeep, hchunkle, hdropfact⟩ := hstep
          have hInv2 : Inv markers (cp + 1) (sr + chunk) (!copying) :=
            Inv_advance hInv1 hdropfact
          have hfuel2 : (len + 1 - chunk) + (markers.length - (cp + 1)) + 1 ≤ fuel := by
            have h1 := hfire.1
            omega
          have hibuf2 : len + 1 - chunk ≤ (ibuf.drop chunk).length := by
            rw [List.length_drop]
            omega
          rw [ih markers (cp + 1) (sr + chunk) (!copying) (ibuf.drop chunk) (len + 1 - chunk)
            hInv2 hfuel2 hibuf2]
          rw [Option.map_some']
          have hlt : (ibuf.take chunk).length = chunk := by
            rw [List.length_take]
            omega
          have hsel : selectKept markers sr (ibuf.take chunk) =
              if (!copying) then ibuf.take chunk else [] := by
            refine selectKept_of_const ?_
            intro k hk
            rw [hlt] at hk
            exact hkeep k hk
          rw [hcpeq, hcons, heofeq]
          have htk : ibuf.take (chunk + flowConsumed markers (sr + chunk) (len + 1 - chunk)) =
              ibuf.take chunk ++
                (ibuf.drop chunk).take (flowConsumed markers (sr + chunk) (len + 1 - chunk)) :=
            List.take_add ibuf chunk _
          rw [htk, selectKept_append, hlt, hsel, ← Nat.add_assoc]
      · rw [if_neg hfire, if_neg hfire]
        obtain ⟨hs, hcpn, hcopy, htake, hdrop⟩ := id hInv
        by_cases heof : markers.length ≤ cp ∧ copying = false
        · rw [if_pos heof]
          have hn : cp = markers.length := by omega
          have heven : markers.length % 2 = 0 := by
            have h1 : ¬ cp % 2 = 1 := by
              intro h1
              have h2 : copying = true := by rw [hcopy]; simp [h1]
              rw [heof.2] at h2
              cases h2
            omega
          have hlastle : markers.getD (markers.length - 1) 0 ≤ sr := by
            rcases Nat.eq_zero_or_pos markers.length with hz | hpos
            · have he : markers = [] := List.length_eq_zero.mp hz
              rw [he]
              simp
            · refine htake _ ?_
              rw [List.take_of_length_le (by omega)]
              exact getD_mem_of_lt (by omega)
          have hstop : stopPos markers sr = sr := by
            unfold stopPos
            omega
          have hC : flowConsumed markers sr (len + 1) = 0 := by
            unfold flowConsumed
            rw [hstop, if_pos heven]
            omega
          have hE : flowEofB markers sr (len + 1) = true := by
            unfold flowEofB
            rw [hstop]
            have h1 : sr - sr < len + 1 := by omega
            simp [heven, h1]
          have hCp : flowCp markers cp sr (len + 1) = cp := by
            unfold flowCp
            rw [hE, if_pos rfl]
            omega
          rw [hC, hE, hCp, hcopy]
          simp [selectKept_nil]
        · rw [if_neg heof]
          set chunk : Nat :=
            if cp < markers.length then min (len + 1) (markers.getD cp 0 - sr)
            else len + 1 with hchunkdef
          have hstep := flow_formula_step hInv (show 0 < len + 1 by omega) heof
            (Or.inl rfl) hchunkdef
          obtain ⟨hcons, heofeq, hcpeq, hkeep, hchunkle, hdropfact⟩ := hstep
          have hInv2 : Inv markers cp (sr + chunk) copying := Inv_advance hInv hdropfact
          have hchunkpos : 1 ≤ chunk := by
            rw [hchunkdef]
            by_cases hcn : cp < markers.length
            · rw [if_pos hcn]
              have hmem : markers.getD cp 0 ∈ markers.drop cp := by
                rw [getD_eq_getElem hcn, List.drop_eq_getElem_cons hcn]
                exact List.mem_cons_self _ _
              have hle : sr ≤ markers.getD cp 0 := hdrop _ hmem
              have hne : sr ≠ markers.getD cp 0 := fun h => hfire ⟨hcn, h⟩
              omega
            · rw [if_neg hcn]
              omega
          have hfuel2 : (len + 1 - chunk) + (markers.length - cp) + 1 ≤ fuel := by
            omega
          have hibuf2 : len + 1 - chunk ≤ (ibuf.drop chunk).length := by
            rw [List.length_drop]
            omega
          rw [ih markers cp (sr + chunk) copying (ibuf.drop chunk) (len + 1 - chunk)
            hInv2 hfuel2 hibuf2]
          rw [Option.map_some']
          have hlt : (ibuf.take chunk).length = chunk := by
            rw [List.length_take]
            omega
          have hsel : selectKept markers sr (ibuf.take chunk) =
              if copying then ibuf.take chunk else [] := by
            refine selectKept_of_const ?_
            intro k hk
            rw [hlt] at hk
            exact hkeep k hk
          rw [hcpeq, hcons, heofeq]
          have htk : ibuf.take (chunk + flowConsumed markers (sr + chunk) (len + 1 - chunk)) =
              ibuf.take chunk ++
                (ibuf.drop chunk).take (flowConsumed markers (sr + chunk) (len + 1 - chunk)) :=
            List.take_add ibuf chunk _
          rw [htk, selectKept_append, hlt, hsel, ← Nat.add_assoc]

/-- The reachable-state invariant is preserved by one `flow` call. -/
theorem Inv_after {markers : List Nat} {cp sr : Nat} {copying : Bool} (len : Nat)
    (hInv : Inv markers cp sr copying) :
    Inv markers (flowCp markers cp sr len) (sr + flowConsumed markers sr len)
      (decide (flowCp markers cp sr len % 2 = 1)) := by
  obtain ⟨hs, hcpn, hcopy, htake, hdrop⟩ := hInv
  by_cases hE : flowEofB markers sr len = true
  · have hcp' : flowCp markers cp sr len = markers.length := by
      unfold flowCp
      rw [hE, if_pos rfl]
    have hEp : markers.length % 2 = 0 ∧ stopPos markers sr - sr < len := by
      unfold flowEofB at hE
      simpa using hE
    have hC : flowConsumed markers sr len = stopPos markers sr - sr := by
      unfold flowConsumed
      rw [if_pos hEp.1]
      omega
    refine ⟨hs, by rw [hcp'], rfl, ?_, ?_⟩
    · intro m hm
      rw [hcp', List.take_of_length_le (le_refl _)] at hm
      have h1 : m ≤ markers.getD (markers.length - 1) 0 := sorted_mem_le_last hs hm
      have h2 : markers.getD (markers.length - 1) 0 ≤ stopPos markers sr := by
        unfold stopPos
        omega
      have h3 : sr ≤ stopPos markers sr := by
        unfold stopPos
        omega
      omega
    · intro m hm
      rw [hcp', List.drop_eq_nil_of_le (le_refl _)] at hm
      cases hm
  · rw [Bool.not_eq_true] at hE
    have hcp' : flowCp markers cp sr len =
        max cp (markers.countP (fun m => decide (m < sr + flowConsumed markers sr len))) := by
      unfold flowCp
      rw [hE]
      simp only [Bool.false_eq_true, if_false]
    refine ⟨hs, ?_, rfl, ?_, ?_⟩
    · rw [hcp']
      have hX := List.countP_le_length
        (fun m => decide (m < sr + flowConsumed markers sr len)) (l := markers)
      omega
    · intro m hm
      rw [hcp'] at hm
      rcases Nat.le_total cp
          (markers.countP (fun m => decide (m < sr + flowConsumed markers sr len))) with h | h
      · rw [Nat.max_eq_right h] at hm
        have := mem_take_countP_lt hs (sr + flowConsumed markers sr len) m hm
        omega
      · rw [Nat.max_eq_left h] at hm
        have := htake m hm
        omega
    · intro m hm
      rw [hcp'] at hm
      have hdd : markers.drop
          (max cp (markers.countP (fun m => decide (m < sr + flowConsumed markers sr len)))) =
          (markers.drop
            (markers.countP (fun m => decide (m < sr + flowConsumed markers sr len)))).drop
            (max cp (markers.countP (fun m => decide (m < sr + flowConsumed markers sr len))) -
              markers.countP (fun m => decide (m < sr + flowConsumed markers sr len))) := by
        rw [List.drop_drop]
        congr 1
        omega
      rw [hdd] at hm
      exact mem_drop_countP_lt hs _ m (List.drop_subset _ _ hm)

theorem countP_lt_mono (l : List Nat) {x y : Nat} (h : x ≤ y) :
    l.countP (fun m => decide (m < x)) ≤ l.countP (fun m => decide (m < y)) := by
  refine List.countP_mono_left ?_
  intro a _ ha
  simp only [decide_eq_true_eq] at ha ⊢
  omega

theorem stopPos_add {markers : List Nat} {sr c : Nat}
    (hc : c ≤ stopPos markers sr - sr) :
    stopPos markers (sr + c) = stopPos markers sr := by
  unfold stopPos at *
  omega

/-- Frames consumed compose over splitting the frame budget. -/
theorem flowConsumed_add (markers : List Nat) (sr l1 l2 : Nat) :
    flowConsumed markers sr (l1 + l2) =
      flowConsumed markers sr l1 +
        flowConsumed markers (sr + flowConsumed markers sr l1) l2 := by
  by_cases hpar : markers.length % 2 = 0
  · have hc1 : flowConsumed markers sr l1 = min l1 (stopPos markers sr - sr) := by
      unfold flowConsumed
      rw [if_pos hpar]
    have hS1 : stopPos markers (sr + flowConsumed markers sr l1) = stopPos markers sr := by
      refine stopPos_add ?_
      rw [hc1]
      omega
    rw [hc1] at hS1
    unfold flowConsumed
    rw [if_pos hpar, if_pos hpar, if_pos hpar, hS1]
    omega
  · unfold flowConsumed
    rw [if_neg hpar, if_neg hpar, if_neg hpar]

/-- The post-call cursor composes over splitting the frame budget. -/
theorem flowCp_add (markers : List Nat) (cp sr l1 l2 : Nat) :
    flowCp markers (flowCp markers cp sr l1) (sr + flowConsumed markers sr l1) l2 =
      flowCp markers cp sr (l1 + l2) := by
  have hsrstop : sr ≤ stopPos markers sr := by
    unfold stopPos
    omega
  by_cases hpar : markers.length % 2 = 0
  · have hc1 : flowConsumed markers sr l1 = min l1 (stopPos markers sr - sr) := by
      unfold flowConsumed
      rw [if_pos hpar]
    have hS1 : stopPos markers (sr + flowConsumed markers sr l1) = stopPos markers sr := by
      refine stopPos_add ?_
      rw [hc1]
      omega
    by_cases h1 : stopPos markers sr - sr < l1
    · -- the first call already reaches the stop point
      have hE1 : flowEofB markers sr l1 = true := by
        unfold flowEofB
        simp [hpar, h1]
      have hcp1 : flowCp markers cp sr l1 = markers.length := by
        unfold flowCp
        rw [hE1, if_pos rfl]
      have hEB : flowEofB markers sr (l1 + l2) = true := by
        have hlt : stopPos markers sr - sr < l1 + l2 := by omega
        unfold flowEofB
        simp [hpar, hlt]
      have hcpB : flowCp markers cp sr (l1 + l2) = markers.length := by
        unfold flowCp
        rw [hEB, if_pos rfl]
      rw [hcp1, hcpB]
      by_cases h2 : 0 < l2
      · have hE2 : flowEofB markers (sr + flowConsumed markers sr l1) l2 = true := by
          unfold flowEofB
          rw [hS1]
          have hlt : stopPos markers sr - (sr + flowConsumed markers sr l1) < l2 := by
            rw [hc1]
            omega
          rw [hc1] at hlt ⊢
          simp [hpar, hlt]
        unfold flowCp
        rw [hE2, if_pos rfl]
      · have hl2 : l2 = 0 := by omega
        subst hl2
        have hE2 : flowEofB markers (sr + flowConsumed markers sr l1) 0 = false := by
          unfold flowEofB
          simp
        unfold flowCp
        rw [hE2]
        simp only [Bool.false_eq_true, if_false]
        have hle := List.countP_le_length
          (fun m => decide (m < sr + flowConsumed markers sr l1 +
            flowConsumed markers (sr + flowConsumed markers sr l1) 0)) (l := markers)
        omega
    · -- the first call stops short of the stop point
      have hE1 : flowEofB markers sr l1 = false := by
        unfold flowEofB
        rw [decide_eq_false h1, Bool.and_false]
      have hc1v : flowConsumed markers sr l1 = l1 := by
        rw [hc1]
        omega
      have hcp1 : flowCp markers cp sr l1 =
          max cp (markers.countP (fun m => decide (m < sr + l1))) := by
        unfold flowCp
        rw [hE1]
        simp only [Bool.false_eq_true, if_false]
        rw [hc1v]
      by_cases h2 : stopPos markers sr - sr - l1 < l2
      · have hE2 : flowEofB markers (sr + flowConsumed markers sr l1) l2 = true := by
          unfold flowEofB
          rw [hS1, hc1v]
          have hlt : stopPos markers sr - (sr + l1) < l2 := by omega
          simp [hpar, hlt]
        have hEB : flowEofB markers sr (l1 + l2) = true := by
          have hlt : stopPos markers sr - sr < l1 + l2 := by omega
          unfold flowEofB
          simp [hpar, hlt]
        have lhs : flowCp markers (flowCp markers cp sr l1)
            (sr + flowConsumed markers sr l1) l2 = markers.length := by
          unfold flowCp
          rw [hE2, if_pos rfl]
        have rhs : flowCp markers cp sr (l1 + l2) = markers.length := by
          unfold flowCp
          rw [hEB, if_pos rfl]
        rw [lhs, rhs]
      · rw [hc1v] at hS1
        have hE2 : flowEofB markers (sr + l1) l2 = false := by
          unfold flowEofB
          rw [hS1]
          have hlt : ¬ stopPos markers sr - (sr + l1) < l2 := by omega
          rw [decide_eq_false hlt, Bool.and_false]
        have hEB : flowEofB markers sr (l1 + l2) = false := by
          have hlt : ¬ stopPos markers sr - sr < l1 + l2 := by omega
          unfold flowEofB
          rw [decide_eq_false hlt, Bool.and_false]
        have hc2v : flowConsumed markers (sr + l1) l2 = l2 := by
          unfold flowConsumed
          rw [if_pos hpar, hS1]
          omega
        have hcBv : flowConsumed markers sr (l1 + l2) = l1 + l2 := by
          unfold flowConsumed
          rw [if_pos hpar]
          omega
        rw [hcp1, hc1v]
        unfold flowCp
        rw [hE2, hEB]
        simp only [Bool.false_eq_true, if_false]
        rw [hc2v, hcBv]
        have harr : sr + l1 + l2 = sr + (l1 + l2) := by omega
        rw [harr]
        have hmono := countP_lt_mono markers (x := sr + l1) (y := sr + (l1 + l2)) (by omega)
        omega
  · -- odd marker count: EOF never fires, everything is consumed
    have hE : ∀ s l, flowEofB markers s l = false := by
      intro s l
      unfold flowEofB
      rw [decide_eq_false hpar, Bool.false_and]
    have hC : ∀ s l, flowConsumed markers s l = l := by
      intro s l
      unfold flowConsumed
      rw [if_neg hpar]
    unfold flowCp
    rw [hE, hE, hE, hC, hC, hC]
    simp only [Bool.false_eq_true, if_false]
    have harr : sr + l1 + l2 = sr + (l1 + l2) := by omega
    rw [harr]
    have hmono := countP_lt_mono markers (x := sr + l1) (y := sr + (l1 + l2)) (by omega)
    omega

theorem flowConsumed_le (markers : List Nat) (sr len : Nat) :
    flowConsumed markers sr len ≤ len := by
  unfold flowConsumed
  split <;> omega

theorem flowConsumed_zero (markers : List Nat) (sr : Nat) :
    flowConsumed markers sr 0 = 0 := by
  unfold flowConsumed
  split <;> omega

theorem flowEofB_zero (markers : List Nat) (sr : Nat) :
    flowEofB markers sr 0 = false := by
  unfold flowEofB
  simp

theorem flowCp_zero {markers : List Nat} {cp sr : Nat}
    (hdrop : ∀ m ∈ markers.drop cp, sr ≤ m) :
    flowCp markers cp sr 0 = cp := by
  unfold flowCp
  rw [flowEofB_zero]
  simp only [Bool.false_eq_true, if_false]
  rw [flowConsumed_zero]
  have h1 : markers.countP (fun m => decide (m < sr + 0)) ≤ cp := by
    refine countP_le_of_drop ?_
    intro m hm
    have := hdrop m hm
    simp only [decide_eq_false_iff_not]
    omega
  omega

/-- If one `flow` call stops before exhausting its budget, a following call
consumes nothing. -/
theorem flowConsumed_second_zero (markers : List Nat) (sr l1 l2 : Nat)
    (h : flowConsumed markers sr l1 < l1) :
    flowConsumed markers (sr + flowConsumed markers sr l1) l2 = 0 := by
  by_cases hpar : markers.length % 2 = 0
  · have hc1 : flowConsumed markers sr l1 = min l1 (stopPos markers sr - sr) := by
      unfold flowConsumed
      rw [if_pos hpar]
    have hS1 : stopPos markers (sr + flowConsumed markers sr l1) = stopPos markers sr := by
      refine stopPos_add ?_
      rw [hc1]
      omega
    rw [hc1] at hS1 h ⊢
    unfold flowConsumed
    rw [if_pos hpar, hS1]
    omega
  · have hc1 : flowConsumed markers sr l1 = l1 := by
      unfold flowConsumed
      rw [if_neg hpar]
    omega

/-- Running `flow` on an invariant state, in closed form: the new state, the emitted
frames, the consumed and produced scalar counts and the status are given by the
specification formulas at frame budget `min isamp osamp / channels`. -/
theorem flow_spec {α : Type} (channels : Nat) (st : TrimState) (ibuf : List α)
    (isamp osamp : Nat)
    (hInv : Inv st.markers st.current_pos st.samples_read st.copying)
    (hbuf : min isamp osamp / channels ≤ ibuf.length) :
    flow channels st ibuf isamp osamp =
      some (⟨st.markers,
          flowCp st.markers st.current_pos st.samples_read (min isamp osamp / channels),
          st.samples_read +
            flowConsumed st.markers st.samples_read (min isamp osamp / channels),
          decide (flowCp st.markers st.current_pos st.samples_read
            (min isamp osamp / channels) % 2 = 1)⟩,
        selectKept st.markers st.samples_read
          (ibuf.take (flowConsumed st.markers st.samples_read (min isamp osamp / channels))),
        flowConsumed st.markers st.samples_read (min isamp osamp / channels) * channels,
        (selectKept st.markers st.samples_read
          (ibuf.take (flowConsumed st.markers st.samples_read
            (min isamp osamp / channels)))).length * channels,
        if flowEofB st.markers st.samples_read (min isamp osamp / channels) then FlowStatus.eof
        else FlowStatus.success) := by
  simp only [flow]
  rw [flowLoop_spec (min isamp osamp / channels + st.markers.length + 2) st.markers
    st.current_pos st.samples_read st.copying ibuf (min isamp osamp / channels) hInv
    (by have := hInv.2.1; omega) hbuf]
  rw [Option.map_some']

/-! ## Helper lemmas: the configuration phase -/

theorem monoCheckFrom_none_chain :
    ∀ (l : List Nat) (lo idx : Nat),
      monoCheckFrom lo idx l = none ↔ List.Chain (· ≤ ·) lo l := by
  intro l
  induction l with
  | nil =>
    intro lo idx
    simp [monoCheckFrom]
  | cons x t ih =>
    intro lo idx
    show (if x < lo then some idx else monoCheckFrom x (idx + 1) t) = none ↔ _
    rw [List.chain_cons]
    by_cases hx : x < lo
    · rw [if_pos hx]
      constructor
      · intro h
        cases h
      · intro ⟨h1, _⟩
        omega
    · rw [if_neg hx, ih x (idx + 1)]
      constructor
      · intro h
        exact ⟨by omega, h⟩
      · intro ⟨_, h⟩
        exact h

theorem monoCheckFrom_some_spec :
    ∀ (l : List Nat) (lo idx i : Nat), monoCheckFrom lo idx l = some i →
      ∃ k, k < l.length ∧ i = idx + k ∧
        ((k = 0 ∧ l.getD 0 0 < lo) ∨
          (1 ≤ k ∧ l.getD k 0 < l.getD (k - 1) 0)) := by
  intro l
  induction l with
  | nil =>
    intro lo idx i h
    cases h
  | cons x t ih =>
    intro lo idx i h
    rw [show monoCheckFrom lo idx (x :: t) =
        (if x < lo then some idx else monoCheckFrom x (idx + 1) t) from rfl] at h
    by_cases hx : x < lo
    · rw [if_pos hx] at h
      injection h with h
      exact ⟨0, by simp, by omega, Or.inl ⟨rfl, by simpa using hx⟩⟩
    · rw [if_neg hx] at h
      obtain ⟨k, hk, hik, hcase⟩ := ih x (idx + 1) i h
      refine ⟨k + 1, by simp; omega, by omega, Or.inr ⟨by omega, ?_⟩⟩
      rcases hcase with ⟨hk0, hlt⟩ | ⟨hk1, hlt⟩
      · subst hk0
        simpa using hlt
      · have e1 : (x :: t).getD (k + 1) 0 = t.getD k 0 := List.getD_cons_succ
        have e2 : (x :: t).getD (k + 1 - 1) 0 = t.getD (k - 1) 0 := by
          have : k + 1 - 1 = (k - 1) + 1 := by omega
          rw [this, List.getD_cons_succ]
        rw [e1, e2]
        exact hlt

theorem sorted_of_monoCheck_none {l : List Nat} (h : monoCheckFrom 0 0 l = none) :
    List.Sorted (· ≤ ·) l := by
  have hch : List.Chain (· ≤ ·) 0 l := (monoCheckFrom_none_chain l 0 0).mp h
  have hch' : List.Chain' (· ≤ ·) l := by
    cases l with
    | nil => exact trivial
    | cons x t => exact (List.chain_cons.mp hch).2
  exact List.chain'_iff_pairwise.mp hch'

theorem resolveFrom_nil (inL lastSeen idx : Nat) :
    resolveFrom inL lastSeen idx [] = Except.ok [] := rfl

theorem resolveFrom_cons_start {m : PosSpec} (inL lastSeen idx : Nat) {rest : List PosSpec}
    (hA : m.anchor = Anchor.a_start) :
    resolveFrom inL lastSeen idx (m :: rest) =
      (resolveFrom inL m.value (idx + 1) rest).map (fun l => m.value :: l) := by
  cases m with
  | mk a v =>
    simp only at hA
    subst hA
    rfl

theorem resolveFrom_cons_latest {m : PosSpec} (inL lastSeen idx : Nat) {rest : List PosSpec}
    (hA : m.anchor = Anchor.a_latest) :
    resolveFrom inL lastSeen idx (m :: rest) =
      (resolveFrom inL (lastSeen + m.value) (idx + 1) rest).map
        (fun l => (lastSeen + m.value) :: l) := by
  cases m with
  | mk a v =>
    simp only at hA
    subst hA
    rfl

theorem resolveFrom_cons_end {m : PosSpec} (inL lastSeen idx : Nat) {rest : List PosSpec}
    (hA : m.anchor = Anchor.a_end) :
    resolveFrom inL lastSeen idx (m :: rest) =
      (if inL < m.value then Except.error (idx + 1)
        else (resolveFrom inL (inL - m.value) (idx + 1) rest).map
          (fun l => (inL - m.value) :: l)) := by
  cases m with
  | mk a v =>
    simp only at hA
    subst hA
    rfl

theorem resolveFrom_ok_spec :
    ∀ (ps : List PosSpec) (inL lastSeen idx : Nat) (ms : List Nat),
      resolveFrom inL lastSeen idx ps = Except.ok ms →
      ms.length = ps.length ∧
      ∀ i, i < ps.length →
        (ms.getD i 0 =
          (match (ps.getD i ⟨Anchor.a_latest, 0⟩).anchor with
            | Anchor.a_start => (ps.getD i ⟨Anchor.a_latest, 0⟩).value
            | Anchor.a_latest => (if i = 0 then lastSeen else ms.getD (i - 1) 0) +
                (ps.getD i ⟨Anchor.a_latest, 0⟩).value
            | Anchor.a_end => inL - (ps.getD i ⟨Anchor.a_latest, 0⟩).value)) ∧
        ((ps.getD i ⟨Anchor.a_latest, 0⟩).anchor = Anchor.a_end →
          (ps.getD i ⟨Anchor.a_latest, 0⟩).value ≤ inL) := by
  intro ps
  induction ps with
  | nil =>
    intro inL lastSeen idx ms h
    injection h with h
    subst h
    exact ⟨rfl, fun i hi => absurd hi (by simp)⟩
  | cons m rest ih =>
    intro inL lastSeen idx ms h
    have hsplit : ∃ res ms', ms = res :: ms' ∧
        resolveFrom inL res (idx + 1) rest = Except.ok ms' ∧
        (m.anchor = Anchor.a_start → res = m.value) ∧
        (m.anchor = Anchor.a_latest → res = lastSeen + m.value) ∧
        (m.anchor = Anchor.a_end → res = inL - m.value ∧ m.value ≤ inL) := by
      cases hA : m.anchor with
      | a_start =>
        rw [resolveFrom_cons_start inL lastSeen idx hA] at h
        cases hrec : resolveFrom inL m.value (idx + 1) rest with
        | error e =>
          rw [hrec] at h
          simp [Except.map] at h
        | ok ms' =>
          rw [hrec] at h
          simp only [Except.map] at h
          injection h with h
          refine ⟨m.value, ms', h.symm, hrec, fun _ => rfl, fun hc => ?_, fun hc => ?_⟩
          · simp at hc
          · simp at hc
      | a_latest =>
        rw [resolveFrom_cons_latest inL lastSeen idx hA] at h
        cases hrec : resolveFrom inL (lastSeen + m.value) (idx + 1) rest with
        | error e =>
          rw [hrec] at h
          simp [Except.map] at h
        | ok ms' =>
          rw [hrec] at h
          simp only [Except.map] at h
          injection h with h
          refine ⟨lastSeen + m.value, ms', h.symm, hrec, fun hc => ?_, fun _ => rfl,
            fun hc => ?_⟩
          · simp at hc
          · simp at hc
      | a_end =>
        rw [resolveFrom_cons_end inL lastSeen idx hA] at h
        by_cases hv : inL < m.value
        · rw [if_pos hv] at h
          cases h
        · rw [if_neg hv] at h
          cases hrec : resolveFrom inL (inL - m.value) (idx + 1) rest with
          | error e =>
            rw [hrec] at h
            simp [Except.map] at h
          | ok ms' =>
            rw [hrec] at h
            simp only [Except.map] at h
            injection h with h
            refine ⟨inL - m.value, ms', h.symm, hrec, fun hc => ?_, fun hc => ?_,
              fun _ => ⟨rfl, by omega⟩⟩
            · simp at hc
            · simp at hc
    obtain ⟨res, ms', rfl, hrec, hstart, hlatest, hend⟩ := hsplit
    obtain ⟨hlen, hspec⟩ := ih inL res (idx + 1) ms' hrec
    refine ⟨by simp [hlen], ?_⟩
    intro i hi
    cases i with
    | zero =>
      have e0 : (m :: rest).getD 0 ⟨Anchor.a_latest, 0⟩ = m := rfl
      refine ⟨?_, ?_⟩
      · show res = _
        rw [e0]
        cases hA : m.anchor with
        | a_start => exact hstart hA
        | a_latest => exact hlatest hA
        | a_end => exact (hend hA).1
      · rw [e0]
        intro hA
        exact (hend hA).2
    | succ j =>
      have hj : j < rest.length := by
        simp at hi
        omega
      obtain ⟨hval, hendj⟩ := hspec j hj
      have e1 : (res :: ms').getD (j + 1) 0 = ms'.getD j 0 := List.getD_cons_succ
      have e2 : ((m :: rest).getD (j + 1) ⟨Anchor.a_latest, 0⟩) =
          rest.getD j ⟨Anchor.a_latest, 0⟩ := List.getD_cons_succ
      have e3 : (if j = 0 then res else ms'.getD (j - 1) 0) =
          (if j + 1 = 0 then lastSeen else (res :: ms').getD (j + 1 - 1) 0) := by
        by_cases hj0 : j = 0
        · subst hj0
          simp
        · rw [if_neg hj0, if_neg (by omega)]
          have hje : j + 1 - 1 = (j - 1) + 1 := by omega
          rw [hje, List.getD_cons_succ]
      refine ⟨?_, ?_⟩
      · rw [e1, e2, ← e3]
        exact hval
      · rw [e2]
        exact hendj

theorem resolveFrom_error_iff :
    ∀ (ps : List PosSpec) (inL lastSeen idx : Nat),
      (∃ e, resolveFrom inL lastSeen idx ps = Except.error e) ↔
      (∃ i, i < ps.length ∧ (ps.getD i ⟨Anchor.a_latest, 0⟩).anchor = Anchor.a_end ∧
        inL < (ps.getD i ⟨Anchor.a_latest, 0⟩).value) := by
  intro ps
  induction ps with
  | nil =>
    intro inL lastSeen idx
    constructor
    · intro ⟨e, h⟩
      cases h
    · intro ⟨i, hi, _⟩
      simp at hi
  | cons m rest ih =>
    intro inL lastSeen idx
    have e0 : (m :: rest).getD 0 ⟨Anchor.a_latest, 0⟩ = m := rfl
    have hshape : ∀ (v : Nat) (f : List Nat → List Nat),
        ((∃ e, (resolveFrom inL v (idx + 1) rest).map f = Except.error e) ↔
          ∃ e, resolveFrom inL v (idx + 1) rest = Except.error e) := by
      intro v f
      cases hrec : resolveFrom inL v (idx + 1) rest with
      | error e => simp [hrec, Except.map]
      | ok ms' => simp [hrec, Except.map]
    have hshift : (∃ i, i < rest.length ∧
          (rest.getD i ⟨Anchor.a_latest, 0⟩).anchor = Anchor.a_end ∧
          inL < (rest.getD i ⟨Anchor.a_latest, 0⟩).value) ↔
        (∃ i, 1 ≤ i ∧ i < (m :: rest).length ∧
          ((m :: rest).getD i ⟨Anchor.a_latest, 0⟩).anchor = Anchor.a_end ∧
          inL < ((m :: rest).getD i ⟨Anchor.a_latest, 0⟩).value) := by
      constructor
      · intro ⟨i, hi, ha, hv⟩
        refine ⟨i + 1, by omega, by simp; omega, ?_, ?_⟩
        · rw [List.getD_cons_succ]
          exact ha
        · rw [List.getD_cons_succ]
          exact hv
      · intro ⟨i, h1, hi, ha, hv⟩
        have e : (m :: rest).getD i ⟨Anchor.a_latest, 0⟩ =
            rest.getD (i - 1) ⟨Anchor.a_latest, 0⟩ := by
          have hie : i = (i - 1) + 1 := by omega
          have h2 : (m :: rest).getD ((i - 1) + 1) ⟨Anchor.a_latest, 0⟩ =
              rest.getD (i - 1) ⟨Anchor.a_latest, 0⟩ := List.getD_cons_succ
          rw [← hie] at h2
          exact h2
        rw [e] at ha hv
        exact ⟨i - 1, by simp at hi; omega, ha, hv⟩
    cases hA : m.anchor with
    | a_start =>
      rw [resolveFrom_cons_start inL lastSeen idx hA, hshape, ih inL m.value (idx + 1),
        hshift]
      constructor
      · intro ⟨i, _, hi, ha, hv⟩
        exact ⟨i, hi, ha, hv⟩
      · intro ⟨i, hi, ha, hv⟩
        have h1 : 1 ≤ i := by
          by_contra hc
          have hi0 : i = 0 := by omega
          subst hi0
          rw [e0, hA] at ha
          simp at ha
        exact ⟨i, h1, hi, ha, hv⟩
    | a_latest =>
      rw [resolveFrom_cons_latest inL lastSeen idx hA, hshape, ih inL (lastSeen + m.value)
        (idx + 1), hshift]
      constructor
      · intro ⟨i, _, hi, ha, hv⟩
        exact ⟨i, hi, ha, hv⟩
      · intro ⟨i, hi, ha, hv⟩
        have h1 : 1 ≤ i := by
          by_contra hc
          have hi0 : i = 0 := by omega
          subst hi0
          rw [e0, hA] at ha
          simp at ha
        exact ⟨i, h1, hi, ha, hv⟩
    | a_end =>
      rw [resolveFrom_cons_end inL lastSeen idx hA]
      by_cases hv : inL < m.value
      · rw [if_pos hv]
        constructor
        · intro _
          refine ⟨0, by simp, ?_, ?_⟩
          · rw [e0]
            exact hA
          · rw [e0]
            exact hv
        · intro _
          exact ⟨idx + 1, rfl⟩
      · rw [if_neg hv]
        rw [hshape, ih inL (inL - m.value) (idx + 1), hshift]
        constructor
        · intro ⟨i, _, hi, ha, hvv⟩
          exact ⟨i, hi, ha, hvv⟩
        · intro ⟨i, hi, ha, hvv⟩
          have h1 : 1 ≤ i := by
            by_contra hc
            have hi0 : i = 0 := by omega
            subst hi0
            rw [e0] at hvv
            omega
          exact ⟨i, h1, hi, ha, hvv⟩


/-- Inversion of a successful `start`: the resolved offsets passed every check,
the state is fresh, and the declared output length is the computed one. -/
theorem start_success_inv {channels length : Nat} {ps : List PosSpec} {st : TrimState}
    {outLen : Nat} (h : start channels length ps = StartOutcome.success st outLen) :
    ∃ ms, resolveFrom (inLenOf channels length) 0 0 ps = Except.ok ms ∧
      monoCheckFrom 0 0 ms = none ∧
      (ms.length ≠ 0 → inLenOf channels length ≠ SOX_UNKNOWN_LEN →
        ms.getD 0 0 ≤ inLenOf channels length ∧
        ms.getD (ms.length - 1) 0 ≤ inLenOf channels length) ∧
      st = ⟨ms, 0, 0, false⟩ ∧
      outLen = (if ms.length % 2 = 1 ∧ inLenOf channels length = SOX_UNKNOWN_LEN
        then SOX_UNKNOWN_LEN
        else (pairSum ms + (if ms.length % 2 = 1
          then inLenOf channels length - ms.getD (ms.length - 1) 0 else 0)) * channels) := by
  by_cases hc1 : inLenOf channels length = SOX_UNKNOWN_LEN ∧ usesEnd ps = true
  · have he : start channels length ps = StartOutcome.fail StartError.lengthUnknownWithEnd := by
      simp only [start]
      rw [if_pos hc1]
    rw [he] at h
    simp at h
  · cases hres : resolveFrom (inLenOf channels length) 0 0 ps with
    | error i =>
      have he : start channels length ps =
          StartOutcome.fail (StartError.positionBeforeStart i) := by
        simp only [start]
        rw [if_neg hc1, hres]
      rw [he] at h
      simp at h
    | ok ms =>
      have he : start channels length ps =
          startAfterResolve channels (inLenOf channels length) ms := by
        simp only [start]
        rw [if_neg hc1, hres]
      rw [he] at h
      cases hmono : monoCheckFrom 0 0 ms with
      | some i =>
        simp only [startAfterResolve] at h
        rw [hmono] at h
        replace h : StartOutcome.fail (StartError.positionBehind i) =
            StartOutcome.success st outLen := h
        simp at h
      | none =>
        simp only [startAfterResolve] at h
        rw [hmono] at h
        replace h : startChecks channels (inLenOf channels length) ms =
            StartOutcome.success st outLen := h
        simp only [startChecks] at h
        by_cases hb1 : ms.length ≠ 0 ∧ inLenOf channels length ≠ SOX_UNKNOWN_LEN ∧
            inLenOf channels length < ms.getD 0 0
        · rw [if_pos hb1] at h
          simp at h
        · rw [if_neg hb1] at h
          by_cases hb2 : ms.length ≠ 0 ∧ inLenOf channels length ≠ SOX_UNKNOWN_LEN ∧
              inLenOf channels length < ms.getD (ms.length - 1) 0
          · rw [if_pos hb2] at h
            simp at h
          · rw [if_neg hb2] at h
            by_cases hb3 : ms.length = 1 ∧ ms.getD 0 0 = 0
            · rw [if_pos hb3] at h
              simp at h
            · rw [if_neg hb3] at h
              injection h with h1 h2
              refine ⟨ms, rfl, hmono, ?_, h1.symm, h2.symm⟩
              intro hlen0 hkn
              constructor
              · by_contra hlt
                exact hb1 ⟨hlen0, hkn, by omega⟩
              · by_contra hlt
                exact hb2 ⟨hlen0, hkn, by omega⟩

/-- The copying flag always equals the parity of the marker cursor across the
flow loop. -/
theorem flowLoop_parity {α : Type} (fuel : Nat) :
    ∀ (markers : List Nat) (cp sr : Nat) (copying : Bool) (ibuf : List α) (len : Nat)
      (r : Nat × Nat × Bool × List α × Nat × FlowStatus),
    flowLoop markers fuel cp sr copying ibuf len = some r →
    copying = decide (cp % 2 = 1) →
    r.2.2.1 = decide (r.1 % 2 = 1) := by
  induction fuel with
  | zero =>
    intro markers cp sr copying ibuf len r h _
    cases h
  | succ fuel ih =>
    intro markers cp sr copying ibuf len r h hcopy
    cases len with
    | zero =>
      injection h with h
      subst h
      exact hcopy
    | succ len =>
      simp only [flowLoop] at h
      by_cases hfire : cp < markers.length ∧ sr = markers.getD cp 0
      · rw [if_pos hfire, if_pos hfire] at h
        have hcopy1 : (!copying) = decide ((cp + 1) % 2 = 1) := by
          rw [hcopy]
          exact not_parity cp
        by_cases heof : markers.length ≤ cp + 1 ∧ (!copying) = false
        · rw [if_pos heof] at h
          injection h with h
          subst h
          exact hcopy1
        · rw [if_neg heof] at h
          rcases Option.map_eq_some'.mp h with ⟨r2, hr2, hfr⟩
          have hpar := ih markers (cp + 1) _ (!copying) _ _ r2 hr2 hcopy1
          rw [← hfr]
          exact hpar
      · rw [if_neg hfire, if_neg hfire] at h
        by_cases heof : markers.length ≤ cp ∧ copying = false
        · rw [if_pos heof] at h
          injection h with h
          subst h
          exact hcopy
        · rw [if_neg heof] at h
          rcases Option.map_eq_some'.mp h with ⟨r2, hr2, hfr⟩
          have hpar := ih markers cp _ copying _ _ r2 hr2 hcopy
          rw [← hfr]
          exact hpar

/-- With the cursor past every marker and copying off, one loop entry with at
least one frame of budget immediately signals end-of-stream. -/
theorem flowLoop_eof {α : Type} (markers : List Nat) (fuel cp sr : Nat) (copying : Bool)
    (ibuf : List α) (len : Nat)
    (hcp : markers.length ≤ cp) (hcopy : copying = false)
    (hlen : 0 < len) (hfuel : 0 < fuel) :
    flowLoop markers fuel cp sr copying ibuf len =
      some (cp, sr, copying, [], 0, FlowStatus.eof) := by
  obtain ⟨f, rfl⟩ : ∃ f, fuel = f + 1 := ⟨fuel - 1, by omega⟩
  obtain ⟨l, rfl⟩ : ∃ l, len = l + 1 := ⟨len - 1, by omega⟩
  simp only [flowLoop]
  have hfire : ¬ (cp < markers.length ∧ sr = markers.getD cp 0) := by
    intro hc
    omega
  rw [if_neg hfire, if_neg hfire, if_pos ⟨hcp, hcopy⟩]

/-- A zero-frame budget returns immediately with nothing consumed or produced. -/
theorem flowLoop_len_zero {α : Type} (markers : List Nat) (fuel cp sr : Nat)
    (copying : Bool) (ibuf : List α) (hfuel : 0 < fuel) :
    flowLoop markers fuel cp sr copying ibuf 0 =
      some (cp, sr, copying, [], 0, FlowStatus.success) := by
  obtain ⟨f, rfl⟩ : ∃ f, fuel = f + 1 := ⟨fuel - 1, by omega⟩
  rfl

/-! ## The claims -/

/-- C10: a flow call whose available budget is less than one frame (the minimum
of the input and output scalar counts is below the channel count) returns
success with zero consumed and produced counts and leaves the entire filter
state (markers, cursor, samples_read, copying) unchanged — even when all
markers are crossed and copying is false, no Exhausted signal is produced. -/
theorem trim_C10 {α : Type} (channels : Nat) (st : TrimState) (ibuf : List α)
    (isamp osamp : Nat) (h : min isamp osamp < channels) :
    flow channels st ibuf isamp osamp = some (st, [], 0, 0, FlowStatus.success) := by
  have hlen : min isamp osamp / channels = 0 := Nat.div_eq_of_lt h
  simp only [flow]
  rw [hlen, flowLoop_len_zero st.markers (0 + st.markers.length + 2) st.current_pos
    st.samples_read st.copying ibuf (by omega), Option.map_some']
  simp

/-- C10 witness: a 4-channel flow call offered only 3 input scalars, from a
state with all (zero) markers crossed and copying false, succeeds with nothing
consumed, nothing produced and the state intact. -/
theorem trim_C10_witness :
    flow 4 (⟨[], 0, 7, false⟩ : TrimState) ([] : List Nat) 3 100 =
      some (⟨[], 0, 7, false⟩, [], 0, 0, FlowStatus.success) :=
  trim_C10 4 ⟨[], 0, 7, false⟩ [] 3 100 (by decide)

/-- C4: (1) when the cursor has passed all markers and copying is false, a flow
call with at least one frame available returns the Exhausted status with
nothing consumed or emitted even though input remains; (2) with an even marker
count, flow never consumes past the last marker; (3) with an even marker count
no frame at or beyond every marker is a kept frame, so no frame past the last
marker is ever emitted. -/
theorem trim_C4 {α : Type} :
    (∀ (channels : Nat) (st : TrimState) (ibuf : List α) (isamp osamp : Nat),
      0 < channels → channels ≤ min isamp osamp →
      st.markers.length ≤ st.current_pos → st.copying = false →
      flow channels st ibuf isamp osamp = some (st, [], 0, 0, FlowStatus.eof)) ∧
    (∀ (channels : Nat) (st : TrimState) (ibuf : List α) (isamp osamp : Nat),
      Inv st.markers st.current_pos st.samples_read st.copying →
      min isamp osamp / channels ≤ ibuf.length →
      st.markers.length % 2 = 0 →
      ∃ st2 out ci co s, flow channels st ibuf isamp osamp = some (st2, out, ci, co, s) ∧
        st2.samples_read ≤ max (st.markers.getD (st.markers.length - 1) 0)
          st.samples_read) ∧
    (∀ (markers : List Nat) (t : Nat), markers.length % 2 = 0 →
      (∀ m ∈ markers, m ≤ t) → keptFrame markers t = false) := by
  refine ⟨?_, ?_, ?_⟩
  · intro channels st ibuf isamp osamp hch hmin hcp hcopy
    have hlen : 0 < min isamp osamp / channels := (Nat.one_le_div_iff hch).mpr hmin
    simp only [flow]
    rw [flowLoop_eof st.markers _ st.current_pos st.samples_read st.copying ibuf _
      hcp hcopy hlen (by omega), Option.map_some']
    simp
  · intro channels st ibuf isamp osamp hInv hbuf heven
    refine ⟨_, _, _, _, _, flow_spec channels st ibuf isamp osamp hInv hbuf, ?_⟩
    show st.samples_read + flowConsumed st.markers st.samples_read
      (min isamp osamp / channels) ≤ _
    unfold flowConsumed stopPos
    rw [if_pos heven]
    omega
  · intro markers t heven hall
    rw [keptFrame_of_all_le hall]
    simp only [decide_eq_false_iff_not]
    omega

/-- C5: the copying flag starts false with the cursor at zero after a
successful configuration, and across every flow call copying remains exactly
the parity of the marker cursor: after the call, copying is true iff the
number of markers crossed so far is odd. -/
theorem trim_C5 :
    (∀ (channels length : Nat) (ps : List PosSpec) (st : TrimState) (outLen : Nat),
      start channels length ps = StartOutcome.success st outLen →
      st.copying = false ∧ st.current_pos = 0) ∧
    (∀ (α : Type) (channels : Nat) (st : TrimState) (ibuf : List α) (isamp osamp : Nat)
      (r : TrimState × List α × Nat × Nat × FlowStatus),
      st.copying = decide (st.current_pos % 2 = 1) →
      flow channels st ibuf isamp osamp = some r →
      r.1.copying = decide (r.1.current_pos % 2 = 1)) := by
  refine ⟨?_, ?_⟩
  · intro channels length ps st outLen h
    obtain ⟨ms, _, _, _, hst, _⟩ := start_success_inv h
    rw [hst]
    exact ⟨rfl, rfl⟩
  · intro α channels st ibuf isamp osamp r hcopy hflow
    simp only [flow] at hflow
    rcases Option.map_eq_some'.mp hflow with ⟨r2, hr2, hfr⟩
    have hpar := flowLoop_parity _ st.markers st.current_pos st.samples_read st.copying
      ibuf _ r2 hr2 hcopy
    rw [← hfr]
    exact hpar

/-- C7: drain always signals end-of-stream and reports zero output samples; it
carries the non-fatal warning payload, naming how many trailing positions were
never reached, exactly when the cursor has not exhausted the marker sequence. -/
theorem trim_C7 (st : TrimState) :
    (drain st).2.2 = FlowStatus.eof ∧
    (drain st).1 = 0 ∧
    (st.current_pos < st.markers.length →
      (drain st).2.1 = some (st.markers.length - st.current_pos)) ∧
    (st.markers.length ≤ st.current_pos → (drain st).2.1 = none) := by
  unfold drain
  by_cases h : st.current_pos < st.markers.length
  · rw [if_pos h]
    exact ⟨rfl, rfl, fun _ => rfl, fun hc => by omega⟩
  · rw [if_neg h]
    exact ⟨rfl, rfl, fun hc => by omega, fun _ => rfl⟩

/-- C9: a configuration whose single marker resolves to offset zero is not an
error — start returns the distinguished no-op outcome `SOX_EFF_NULL` instead of
proceeding to streaming. -/
theorem trim_C9 (channels length : Nat) (ps : List PosSpec)
    (h1 : ¬ (inLenOf channels length = SOX_UNKNOWN_LEN ∧ usesEnd ps = true))
    (h2 : resolveFrom (inLenOf channels length) 0 0 ps = Except.ok [0]) :
    start channels length ps = StartOutcome.effNull := by
  simp only [start]
  rw [if_neg h1, h2]
  show startAfterResolve channels (inLenOf channels length) [0] = StartOutcome.effNull
  simp only [startAfterResolve]
  rw [show monoCheckFrom 0 0 [0] = none from rfl]
  show startChecks channels (inLenOf channels length) [0] = StartOutcome.effNull
  simp only [startChecks]
  rw [if_neg (by intro ⟨_, _, hc⟩; simp at hc), if_neg (by intro ⟨_, _, hc⟩; simp at hc),
    if_pos ⟨rfl, rfl⟩]

/-- C9 witness: the trim argument list `["=0"]` on a known-length stream
resolves to the single zero offset and start returns `SOX_EFF_NULL`. -/
theorem trim_C9_witness :
    start 1 100 [⟨Anchor.a_start, 0⟩] = StartOutcome.effNull :=
  trim_C9 1 100 [⟨Anchor.a_start, 0⟩] (by decide) (by rfl)

/-- C2: position resolution walks the markers in order with `last_seen`
starting at 0: a `FromStart` (`a_start`) marker resolves to its parsed value, a
`FromPrevious` (`a_latest`) marker to `last_seen` plus its value, a `FromEnd`
(`a_end`) marker to `total_length` minus its value — failing with the fatal
configuration error exactly when some `a_end` marker's value exceeds the total
length — and `last_seen` becomes each marker's resolved offset (so the
predecessor entry of the result list). -/
theorem trim_C2 (inL : Nat) (ps : List PosSpec) :
    (∀ ms, resolveFrom inL 0 0 ps = Except.ok ms →
      ms.length = ps.length ∧
      ∀ i, i < ps.length →
        (ms.getD i 0 =
          (match (ps.getD i ⟨Anchor.a_latest, 0⟩).anchor with
            | Anchor.a_start => (ps.getD i ⟨Anchor.a_latest, 0⟩).value
            | Anchor.a_latest => (if i = 0 then 0 else ms.getD (i - 1) 0) +
                (ps.getD i ⟨Anchor.a_latest, 0⟩).value
            | Anchor.a_end => inL - (ps.getD i ⟨Anchor.a_latest, 0⟩).value)) ∧
        ((ps.getD i ⟨Anchor.a_latest, 0⟩).anchor = Anchor.a_end →
          (ps.getD i ⟨Anchor.a_latest, 0⟩).value ≤ inL)) ∧
    ((∃ e, resolveFrom inL 0 0 ps = Except.error e) ↔
      (∃ i, i < ps.length ∧ (ps.getD i ⟨Anchor.a_latest, 0⟩).anchor = Anchor.a_end ∧
        inL < (ps.getD i ⟨Anchor.a_latest, 0⟩).value)) :=
  ⟨fun ms h => resolveFrom_ok_spec ps inL 0 0 ms h, resolveFrom_error_iff ps inL 0 0⟩

/-- C6: the sanity check of `start` succeeds exactly when the resolved offsets
are non-decreasing (each at least its predecessor); when it fails it names an
offending index `i ≥ 1` whose offset is smaller than its predecessor's, and
`start` then fails fatally with that index; every successfully configured
filter state has non-decreasing markers. -/
theorem trim_C6 :
    (∀ ms : List Nat, monoCheckFrom 0 0 ms = none ↔ List.Chain' (· ≤ ·) ms) ∧
    (∀ (ms : List Nat) (i : Nat), monoCheckFrom 0 0 ms = some i →
      1 ≤ i ∧ i < ms.length ∧ ms.getD i 0 < ms.getD (i - 1) 0) ∧
    (∀ (channels length : Nat) (ps : List PosSpec) (st : TrimState) (outLen : Nat),
      start channels length ps = StartOutcome.success st outLen →
      List.Chain' (· ≤ ·) st.markers) ∧
    (∀ (channels length : Nat) (ps : List PosSpec) (ms : List Nat) (i : Nat),
      ¬ (inLenOf channels length = SOX_UNKNOWN_LEN ∧ usesEnd ps = true) →
      resolveFrom (inLenOf channels length) 0 0 ps = Except.ok ms →
      monoCheckFrom 0 0 ms = some i →
      start channels length ps = StartOutcome.fail (StartError.positionBehind i)) := by
  have hchain : ∀ ms : List Nat, monoCheckFrom 0 0 ms = none ↔ List.Chain' (· ≤ ·) ms := by
    intro ms
    rw [monoCheckFrom_none_chain ms 0 0]
    cases ms with
    | nil => simp
    | cons x t =>
      rw [List.chain_cons]
      constructor
      · intro ⟨_, h⟩
        exact h
      · intro h
        exact ⟨Nat.zero_le x, h⟩
  refine ⟨hchain, ?_, ?_, ?_⟩
  · intro ms i h
    obtain ⟨k, hk, hik, hcase⟩ := monoCheckFrom_some_spec ms 0 0 i h
    rcases hcase with ⟨hk0, hlt⟩ | ⟨hk1, hlt⟩
    · omega
    · subst hik
      exact ⟨by omega, by omega, by simpa using hlt⟩
  · intro channels length ps st outLen h
    obtain ⟨ms, _, hmono, _, hst, _⟩ := start_success_inv h
    rw [hst]
    exact (hchain ms).mp hmono
  · intro channels length ps ms i hc1 hres hmono
    simp only [start]
    rw [if_neg hc1, hres]
    show startAfterResolve channels (inLenOf channels length) ms = _
    simp only [startAfterResolve]
    rw [hmono]

/-- C8: immediately after a successful configuration, the start-skip query
returns the first marker's frame offset times the channel count (0 with no
markers), and a flow call offered exactly that many frames discards them all
(empty output, everything consumed, success) ending in precisely the state
that the acknowledge operation `sox_trim_clear_start` produces — so
acknowledging is equivalent to having flowed the leading discard through. -/
theorem trim_C8 {α : Type} (channels length : Nat) (ps : List PosSpec) (st : TrimState)
    (outLen : Nat) (ibuf : List α)
    (hch : 0 < channels)
    (hs : start channels length ps = StartOutcome.success st outLen)
    (hibuf : st.markers.headD 0 ≤ ibuf.length) :
    sox_trim_get_start channels st = st.markers.headD 0 * channels ∧
    flow channels st ibuf (st.markers.headD 0 * channels) (st.markers.headD 0 * channels) =
      some (sox_trim_clear_start st, [], st.markers.headD 0 * channels, 0,
        FlowStatus.success) := by
  obtain ⟨ms, hres, hmono, hbounds, hst, houtLen⟩ := start_success_inv hs
  subst hst
  have hsorted := sorted_of_monoCheck_none hmono
  constructor
  · simp only [sox_trim_get_start]
    cases ms with
    | nil => simp
    | cons a t => simp
  · have hInv : Inv ms 0 0 false := ⟨hsorted, Nat.zero_le _, rfl,
      fun m hm => by simp at hm, fun m hm => Nat.zero_le m⟩
    have hlen : min (ms.headD 0 * channels) (ms.headD 0 * channels) / channels =
        ms.headD 0 := by
      rw [Nat.min_self, Nat.mul_div_cancel _ hch]
    have hflow := flow_spec channels ⟨ms, 0, 0, false⟩ ibuf (ms.headD 0 * channels)
      (ms.headD 0 * channels) hInv (by rw [hlen]; exact hibuf)
    rw [hlen] at hflow
    have hm0le : ms.headD 0 ≤ stopPos ms 0 := by
      cases ms with
      | nil => simp [stopPos]
      | cons a t =>
        have := sorted_mem_le_last hsorted (List.mem_cons_self a t)
        unfold stopPos
        simp only [List.headD_cons]
        omega
    have hC : flowConsumed ms 0 (ms.headD 0) = ms.headD 0 := by
      unfold flowConsumed
      by_cases hpar : ms.length % 2 = 0
      · rw [if_pos hpar]
        omega
      · rw [if_neg hpar]
    have hE : flowEofB ms 0 (ms.headD 0) = false := by
      unfold flowEofB
      have hd : decide (stopPos ms 0 - 0 < ms.headD 0) = false :=
        decide_eq_false (by omega)
      rw [hd, Bool.and_false]
    have hheadle : ∀ m ∈ ms, ms.headD 0 ≤ m := by
      intro m hm
      cases ms with
      | nil => cases hm
      | cons a t =>
        rcases List.mem_cons.mp hm with rfl | hmt
        · simp
        · have := (List.sorted_cons.mp hsorted).1 m hmt
          simpa using this
    have hCp : flowCp ms 0 0 (ms.headD 0) = 0 := by
      unfold flowCp
      rw [hE]
      simp only [Bool.false_eq_true, if_false]
      rw [hC]
      have h0 : ms.countP (fun m => decide (m < 0 + ms.headD 0)) = 0 := by
        refine List.countP_eq_zero.mpr ?_
        intro m hm
        have := hheadle m hm
        simp only [decide_eq_true_eq]
        omega
      rw [h0]
      omega
    have hout : selectKept ms 0 (ibuf.take (flowConsumed ms 0 (ms.headD 0))) =
        ([] : List α) := by
      have hsel : selectKept ms 0 (ibuf.take (flowConsumed ms 0 (ms.headD 0))) =
          if false then ibuf.take (flowConsumed ms 0 (ms.headD 0)) else [] := by
        refine selectKept_of_const ?_
        intro k hk
        rw [List.length_take, hC] at hk
        refine keptFrame_of_all_gt ?_
        intro m hm
        have := hheadle m hm
        omega
      rw [hsel]
      rfl
    have hclear : sox_trim_clear_start ⟨ms, 0, 0, false⟩ =
        (⟨ms, 0, ms.headD 0, false⟩ : TrimState) := by
      simp only [sox_trim_clear_start]
      cases ms with
      | nil => simp
      | cons a t => simp
    rw [hflow, hclear, hout, hC, hE, hCp]
    simp

/-- C8 witness: for markers resolved to `[2, 5]` on a mono stream, the query
returns 2 scalar samples and flowing exactly 2 frames reproduces the state
`sox_trim_clear_start` sets up, emitting nothing. -/
theorem trim_C8_witness :
    sox_trim_get_start 1 (⟨[2, 5], 0, 0, false⟩ : TrimState) = 2 * 1 ∧
    flow 1 (⟨[2, 5], 0, 0, false⟩ : TrimState) [10, 11, 12] (2 * 1) (2 * 1) =
      some (sox_trim_clear_start ⟨[2, 5], 0, 0, false⟩, [], 2 * 1, 0,
        FlowStatus.success) :=
  trim_C8 1 8 [⟨Anchor.a_start, 2⟩, ⟨Anchor.a_latest, 3⟩] ⟨[2, 5], 0, 0, false⟩ 3
    [10, 11, 12] (by decide) (by decide) (by decide)

/-- C1: for a successfully configured marker sequence on a stream of known
total length `T` frames, one flow call over the full stream emits exactly the
declared number of samples: the produced count and the emitted frame count
times the channel count both equal the declared output length, which is the
sum over consecutive marker pairs of their differences plus, for an odd marker
count, `T` minus the last marker, all times the channel count. -/
theorem trim_C1 {α : Type} (channels T : Nat) (ps : List PosSpec) (st : TrimState)
    (outLen : Nat) (ibuf : List α)
    (hch : 0 < channels)
    (hTk : T ≠ SOX_UNKNOWN_LEN)
    (hLk : T * channels ≠ SOX_UNKNOWN_LEN)
    (hs : start channels (T * channels) ps = StartOutcome.success st outLen)
    (hibuf : ibuf.length = T) :
    ∃ st2 out ci s, flow channels st ibuf (T * channels) (T * channels) =
        some (st2, out, ci, out.length * channels, s) ∧
      out.length * channels = outLen := by
  obtain ⟨ms, hres, hmono, hbounds, hst, houtLen⟩ := start_success_inv hs
  subst hst
  have hinlen : inLenOf channels (T * channels) = T := by
    unfold inLenOf
    rw [if_pos hLk]
    exact Nat.mul_div_cancel T hch
  rw [hinlen] at hbounds houtLen
  have hsorted := sorted_of_monoCheck_none hmono
  have hInv : Inv ms 0 0 false := ⟨hsorted, Nat.zero_le _, rfl,
    fun m hm => by simp at hm, fun m hm => Nat.zero_le m⟩
  have hlen : min (T * channels) (T * channels) / channels = T := by
    rw [Nat.min_self, Nat.mul_div_cancel _ hch]
  have hflow := flow_spec channels ⟨ms, 0, 0, false⟩ ibuf (T * channels) (T * channels)
    hInv (by rw [hlen, hibuf])
  rw [hlen] at hflow
  refine ⟨_, _, _, _, hflow, ?_⟩
  have hlast_le : ms.getD (ms.length - 1) 0 ≤ T := by
    cases hc : ms with
    | nil => simp
    | cons a t =>
      rw [← hc]
      exact (hbounds (by rw [hc]; simp) hTk).2
  have hC : flowConsumed ms 0 T =
      if ms.length % 2 = 0 then ms.getD (ms.length - 1) 0 else T := by
    unfold flowConsumed stopPos
    by_cases hpar : ms.length % 2 = 0
    · rw [if_pos hpar, if_pos hpar]
      omega
    · rw [if_neg hpar, if_neg hpar]
  have hlen_take : (ibuf.take (flowConsumed ms 0 T)).length = flowConsumed ms 0 T := by
    rw [List.length_take]
    have := flowConsumed_le ms 0 T
    omega
  have hcount : (selectKept ms 0 (ibuf.take (flowConsumed ms 0 T))).length =
      keptCount ms 0 (flowConsumed ms 0 T) := by
    rw [selectKept_length, hlen_take]
  rw [hcount]
  by_cases hpar : ms.length % 2 = 0
  · have hCeq : flowConsumed ms 0 T = ms.getD (ms.length - 1) 0 := by
      rw [hC, if_pos hpar]
    rw [hCeq, keptCount_pairs ms hsorted (ms.getD (ms.length - 1) 0) (le_refl _), houtLen]
    have hodd : ¬ ms.length % 2 = 1 := by omega
    rw [if_neg hodd, if_neg (fun hcon => hodd hcon.1)]
    simp [hodd]
  · have hodd : ms.length % 2 = 1 := by omega
    have hCeq : flowConsumed ms 0 T = T := by
      rw [hC, if_neg hpar]
    rw [hCeq, keptCount_pairs ms hsorted T hlast_le, houtLen]
    rw [if_pos hodd, if_neg (fun hcon => hTk hcon.2)]

/-- C1 witness: markers `[2, 5]` on an 8-frame mono stream: the single full
flow call emits 3 frames and 3 scalar samples, the declared output length. -/
theorem trim_C1_witness :
    ∃ st2 out ci s, flow 1 (⟨[2, 5], 0, 0, false⟩ : TrimState) (List.range 8) 8 8 =
        some (st2, out, ci, out.length * 1, s) ∧ out.length * 1 = 3 :=
  trim_C1 1 8 [⟨Anchor.a_start, 2⟩, ⟨Anchor.a_latest, 3⟩] ⟨[2, 5], 0, 0, false⟩ 3
    (List.range 8) (by decide) (by decide) (by decide) (by decide) (by simp)

theorem selectKept_take_split {α : Type} (markers : List Nat) (sr : Nat) (c J : List α)
    (C1 C2 : Nat) (h1 : C1 ≤ c.length) (h2 : C1 < c.length → C2 = 0) :
    selectKept markers sr ((c ++ J).take (C1 + C2)) =
      selectKept markers sr (c.take C1) ++ selectKept markers (sr + C1) (J.take C2) := by
  rcases Nat.lt_or_ge C1 c.length with h | h
  · have hC2 : C2 = 0 := h2 h
    subst hC2
    rw [Nat.add_zero, List.take_append_eq_append_take,
      show C1 - c.length = 0 from by omega, List.take_zero, List.append_nil,
      selectKept_nil, List.append_nil]
  · have hC1 : C1 = c.length := by omega
    subst hC1
    rw [List.take_append, List.take_of_length_le (le_refl _),
      selectKept_append markers sr c (J.take C2)]

theorem runChunks_cons_eq {α : Type} (channels : Nat) (st st1 : TrimState)
    (c : List α) (cs : List (List α)) (out1 : List α) (ci co : Nat) (s : FlowStatus)
    (h : flow channels st c (c.length * channels) (c.length * channels) =
      some (st1, out1, ci, co, s)) :
    runChunks channels st (c :: cs) =
      (runChunks channels st1 cs).map (fun p => (p.1, out1 ++ p.2)) := by
  have hstep : runChunks channels st (c :: cs) =
      (runChunks channels st1 cs).bind (fun p => some (p.1, out1 ++ p.2)) := by
    simp only [runChunks, h]
    rfl
  rw [hstep]
  cases hrc : runChunks channels st1 cs with
  | none => rfl
  | some p => rfl

/-- Chunking invariance of the flow loop: feeding the input through any
sequence of buffer-sized flow calls yields the same concatenated output and
the same final filter state as one flow call over the whole input. -/
theorem runChunks_eq {α : Type} (channels : Nat) (hch : 0 < channels) :
    ∀ (chunks : List (List α)) (st : TrimState),
    Inv st.markers st.current_pos st.samples_read st.copying →
    runChunks channels st chunks =
      (flow channels st chunks.flatten (chunks.flatten.length * channels)
        (chunks.flatten.length * channels)).map (fun r => (r.1, r.2.1))
  | [], st, _ => by
    show some (st, ([] : List α)) = _
    have hfl : flow channels st (List.flatten ([] : List (List α)))
        ((List.flatten ([] : List (List α))).length * channels)
        ((List.flatten ([] : List (List α))).length * channels) =
        some (st, [], 0, 0, FlowStatus.success) := by
      simp only [flow]
      have h0 : min ((List.flatten ([] : List (List α))).length * channels)
          ((List.flatten ([] : List (List α))).length * channels) / channels = 0 := by
        simp
      rw [h0, flowLoop_len_zero st.markers _ _ _ _ _ (by omega), Option.map_some']
      simp
    rw [hfl, Option.map_some']
  | c :: cs, st, hInv => by
    have hlen1 : min (c.length * channels) (c.length * channels) / channels = c.length := by
      rw [Nat.min_self, Nat.mul_div_cancel _ hch]
    have hflow1 : flow channels st c (c.length * channels) (c.length * channels) =
        some (⟨st.markers,
            flowCp st.markers st.current_pos st.samples_read c.length,
            st.samples_read + flowConsumed st.markers st.samples_read c.length,
            decide (flowCp st.markers st.current_pos st.samples_read c.length % 2 = 1)⟩,
          selectKept st.markers st.samples_read
            (c.take (flowConsumed st.markers st.samples_read c.length)),
          flowConsumed st.markers st.samples_read c.length * channels,
          (selectKept st.markers st.samples_read
            (c.take (flowConsumed st.markers st.samples_read c.length))).length * channels,
          if flowEofB st.markers st.samples_read c.length then FlowStatus.eof
          else FlowStatus.success) := by
      have h := flow_spec channels st c (c.length * channels) (c.length * channels) hInv
        (by rw [hlen1])
      rw [hlen1] at h
      exact h
    rw [runChunks_cons_eq channels st _ c cs _ _ _ _ hflow1]
    have hInv1 : Inv st.markers (flowCp st.markers st.current_pos st.samples_read c.length)
        (st.samples_read + flowConsumed st.markers st.samples_read c.length)
        (decide (flowCp st.markers st.current_pos st.samples_read c.length % 2 = 1)) :=
      Inv_after c.length hInv
    rw [runChunks_eq channels hch cs ⟨st.markers,
      flowCp st.markers st.current_pos st.samples_read c.length,
      st.samples_read + flowConsumed st.markers st.samples_read c.length,
      decide (flowCp st.markers st.current_pos st.samples_read c.length % 2 = 1)⟩ hInv1]
    have hlen2 : min (cs.flatten.length * channels) (cs.flatten.length * channels) /
        channels = cs.flatten.length := by
      rw [Nat.min_self, Nat.mul_div_cancel _ hch]
    have hflow2 : flow channels (⟨st.markers,
        flowCp st.markers st.current_pos st.samples_read c.length,
        st.samples_read + flowConsumed st.markers st.samples_read c.length,
        decide (flowCp st.markers st.current_pos st.samples_read c.length % 2 = 1)⟩ :
          TrimState)
        cs.flatten (cs.flatten.length * channels) (cs.flatten.length * channels) =
        some (⟨st.markers,
            flowCp st.markers (flowCp st.markers st.current_pos st.samples_read c.length)
              (st.samples_read + flowConsumed st.markers st.samples_read c.length)
              cs.flatten.length,
            st.samples_read + flowConsumed st.markers st.samples_read c.length +
              flowConsumed st.markers
                (st.samples_read + flowConsumed st.markers st.samples_read c.length)
                cs.flatten.length,
            decide (flowCp st.markers
              (flowCp st.markers st.current_pos st.samples_read c.length)
              (st.samples_read + flowConsumed st.markers st.samples_read c.length)
              cs.flatten.length % 2 = 1)⟩,
          selectKept st.markers
            (st.samples_read + flowConsumed st.markers st.samples_read c.length)
            (cs.flatten.take (flowConsumed st.markers
              (st.samples_read + flowConsumed st.markers st.samples_read c.length)
              cs.flatten.length)),
          flowConsumed st.markers
            (st.samples_read + flowConsumed st.markers st.samples_read c.length)
            cs.flatten.length * channels,
          (selectKept st.markers
            (st.samples_read + flowConsumed st.markers st.samples_read c.length)
            (cs.flatten.take (flowConsumed st.markers
              (st.samples_read + flowConsumed st.markers st.samples_read c.length)
              cs.flatten.length))).length * channels,
          if flowEofB st.markers
              (st.samples_read + flowConsumed st.markers st.samples_read c.length)
              cs.flatten.length then FlowStatus.eof
          else FlowStatus.success) := by
      have h := flow_spec channels (⟨st.markers,
        flowCp st.markers st.current_pos st.samples_read c.length,
        st.samples_read + flowConsumed st.markers st.samples_read c.length,
        decide (flowCp st.markers st.current_pos st.samples_read c.length % 2 = 1)⟩ :
          TrimState) cs.flatten (cs.flatten.length * channels)
        (cs.flatten.length * channels) hInv1 (by rw [hlen2])
      rw [hlen2] at h
      exact h
    rw [hflow2, Option.map_some', Option.map_some']
    have hflat : (c :: cs).flatten = c ++ cs.flatten := List.flatten_cons
    rw [hflat, show (c ++ cs.flatten).length = c.length + cs.flatten.length from
      List.length_append c cs.flatten]
    have hlenB : min ((c.length + cs.flatten.length) * channels)
        ((c.length + cs.flatten.length) * channels) / channels =
        c.length + cs.flatten.length := by
      rw [Nat.min_self, Nat.mul_div_cancel _ hch]
    have hflowB : flow channels st (c ++ cs.flatten)
        ((c.length + cs.flatten.length) * channels)
        ((c.length + cs.flatten.length) * channels) =
        some (⟨st.markers,
            flowCp st.markers st.current_pos st.samples_read
              (c.length + cs.flatten.length),
            st.samples_read + flowConsumed st.markers st.samples_read
              (c.length + cs.flatten.length),
            decide (flowCp st.markers st.current_pos st.samples_read
              (c.length + cs.flatten.length) % 2 = 1)⟩,
          selectKept st.markers st.samples_read
            ((c ++ cs.flatten).take (flowConsumed st.markers st.samples_read
              (c.length + cs.flatten.length))),
          flowConsumed st.markers st.samples_read (c.length + cs.flatten.length) *
            channels,
          (selectKept st.markers st.samples_read
            ((c ++ cs.flatten).take (flowConsumed st.markers st.samples_read
              (c.length + cs.flatten.length)))).length * channels,
          if flowEofB st.markers st.samples_read (c.length + cs.flatten.length) then
            FlowStatus.eof
          else FlowStatus.success) := by
      have h := flow_spec channels st (c ++ cs.flatten)
        ((c.length + cs.flatten.length) * channels)
        ((c.length + cs.flatten.length) * channels) hInv
        (by rw [hlenB, List.length_append])
      rw [hlenB] at h
      exact h
    rw [hflowB, Option.map_some']
    have hca := flowConsumed_add st.markers st.samples_read c.length cs.flatten.length
    have hcpa := flowCp_add st.markers st.current_pos st.samples_read c.length
      cs.flatten.length
    rw [hca, ← hcpa, ← Nat.add_assoc,
      selectKept_take_split st.markers st.samples_read c cs.flatten _ _
        (flowConsumed_le st.markers st.samples_read c.length)
        (fun h => flowConsumed_second_zero st.markers st.samples_read c.length
          cs.flatten.length h)]

/-- C3: splitting the stream into any sequence of buffer-sized flow calls
produces output identical to one large flow call over the same total input:
the concatenated emitted frames and the final filter state coincide with those
of the single call. -/
theorem trim_C3 {α : Type} (channels : Nat) (chunks : List (List α)) (st : TrimState)
    (hch : 0 < channels)
    (hInv : Inv st.markers st.current_pos st.samples_read st.copying) :
    runChunks channels st chunks =
      (flow channels st chunks.flatten (chunks.flatten.length * channels)
        (chunks.flatten.length * channels)).map (fun r => (r.1, r.2.1)) :=
  runChunks_eq channels hch chunks st hInv

/-- C3 witness: markers `[2, 5]` on a mono stream of 8 frames, fed as chunks of
3, 3 and 2 frames, produce the same output frames and final state as one call. -/
theorem trim_C3_witness :
    runChunks 1 (⟨[2, 5], 0, 0, false⟩ : TrimState)
        [[10, 11, 12], [13, 14, 15], [16, 17]] =
      (flow 1 (⟨[2, 5], 0, 0, false⟩ : TrimState)
        [10, 11, 12, 13, 14, 15, 16, 17] 8 8).map (fun r => (r.1, r.2.1)) :=
  trim_C3 1 [[10, 11, 12], [13, 14, 15], [16, 17]] ⟨[2, 5], 0, 0, false⟩ (by decide)
    (by decide)

end SoxTrim
